import Mathlib

/-!
Verification of the tcli package-manager core against its specification.

Each Rust function under scrutiny is shallowly embedded as an executable
Lean definition; machine state (the filesystem, the on-disk statefile,
the package index) is passed explicitly.  File contents are modelled as
`List Char`, filesystem digests as association lists from path to digest
string, and the `petgraph` graph as a node list plus an association-list
side index, mirroring the Rust data layout.

Rust `HashMap`s are modelled as association lists.  Wherever the code's
observable behaviour could depend on hash-map iteration order, the claims
are settled under the distinctness hypotheses that the data model section
of the specification guarantees (one node per loose identity, distinct
lookup keys), under which the behaviour is order-independent.
-/

namespace Tcli

/- ------------------------------------------------------------------ -/
/- Versions and package references.                                    -/
/- ------------------------------------------------------------------ -/

/-- Modelled from the spec: `src/ts/version.rs` is not part of the sources
provided; the spec states a `Version` is a `(major, minor, patch)` triple of
nonnegative integers ordered lexicographically. -/
structure Version where
  major : Nat
  minor : Nat
  patch : Nat
deriving DecidableEq, Repr

/-- Modelled from the spec: lexicographic strict order on versions
(`version.rs` missing from the sources; spec §3 "Ordered lexicographically"). -/
def Version.ltb (a b : Version) : Bool :=
  decide (a.major < b.major) ||
    (a.major == b.major &&
      (decide (a.minor < b.minor) ||
        (a.minor == b.minor && decide (a.patch < b.patch))))

theorem Version.ltb_iff (a b : Version) :
    a.ltb b = true ↔
      a.major < b.major ∨
        (a.major = b.major ∧
          (a.minor < b.minor ∨ (a.minor = b.minor ∧ a.patch < b.patch))) := by
  simp [Version.ltb]

theorem Version.ltb_eq_false_iff (a b : Version) :
    a.ltb b = false ↔
      ¬(a.major < b.major ∨
        (a.major = b.major ∧
          (a.minor < b.minor ∨ (a.minor = b.minor ∧ a.patch < b.patch)))) := by
  rw [Bool.eq_false_iff, ne_eq, Version.ltb_iff]

theorem Version.ltb_irrefl (a : Version) : a.ltb a = false := by
  simp [Version.ltb]

theorem Version.ltb_asymm {a b : Version} (h : a.ltb b = true) : b.ltb a = false := by
  rw [Version.ltb_iff] at h
  rw [Version.ltb_eq_false_iff]
  omega

theorem Version.eq_of_not_ltb {a b : Version} (h₁ : a.ltb b = false)
    (h₂ : b.ltb a = false) : a = b := by
  rw [Version.ltb_eq_false_iff] at h₁ h₂
  obtain ⟨a1, a2, a3⟩ := a
  obtain ⟨b1, b2, b3⟩ := b
  simp only [Version.mk.injEq]
  simp only at h₁ h₂
  omega

theorem Version.ltb_trans {a b c : Version} (h₁ : a.ltb b = true)
    (h₂ : b.ltb c = true) : a.ltb c = true := by
  rw [Version.ltb_iff] at h₁ h₂ ⊢
  omega

/-- Modelled from the spec: `src/ts/package_reference.rs` is not part of the
sources provided; the spec states a `PackageReference` is a
`(namespace, name, version)` triple.  The `namespace` field is called
`nspace` here because `namespace` is a Lean keyword. -/
structure PackageReference where
  nspace : String
  name : String
  version : Version
deriving DecidableEq, Repr

/-- Modelled from the spec: the loose identity string `"<namespace>-<name>"`
(version-independent identity form). -/
def PackageReference.toLooseIdentString (p : PackageReference) : String :=
  p.nspace ++ "-" ++ p.name

/- ------------------------------------------------------------------ -/
/- Association-list helpers (the model of Rust `HashMap`).             -/
/- ------------------------------------------------------------------ -/

theorem lookup_eq_some_mem {α β : Type} [DecidableEq α] {t : List (α × β)}
    {k : α} {v : β} (h : List.lookup k t = some v) : (k, v) ∈ t := by
  induction t with
  | nil => simp at h
  | cons hd tl ih =>
    obtain ⟨k', v'⟩ := hd
    rw [List.lookup_cons] at h
    by_cases hk : k = k'
    · subst hk
      simp at h
      subst h
      exact List.mem_cons_self _ _
    · simp [beq_eq_false_iff_ne.mpr hk] at h
      exact List.mem_cons_of_mem _ (ih h)

theorem lookup_eq_some_of_mem {α β : Type} [DecidableEq α] {t : List (α × β)}
    {k : α} {v : β} (hnd : (t.map Prod.fst).Nodup) (h : (k, v) ∈ t) :
    List.lookup k t = some v := by
  induction t with
  | nil => simp at h
  | cons hd tl ih =>
    obtain ⟨k', v'⟩ := hd
    simp only [List.map_cons, List.nodup_cons] at hnd
    rcases List.mem_cons.mp h with h' | h'
    · obtain ⟨h1, h2⟩ := Prod.mk.injEq .. ▸ h'
      subst h1; subst h2
      simp [List.lookup_cons]
    · have hk : k ≠ k' := by
        intro he
        subst he
        exact hnd.1 (List.mem_map.mpr ⟨(k, v), h', rfl⟩)
      rw [List.lookup_cons]
      simp [beq_eq_false_iff_ne.mpr hk]
      exact ih hnd.2 h'

theorem lookup_eq_none_iff {α β : Type} [DecidableEq α] {t : List (α × β)}
    {k : α} : List.lookup k t = none ↔ k ∉ t.map Prod.fst := by
  induction t with
  | nil => simp
  | cons hd tl ih =>
    obtain ⟨k', v'⟩ := hd
    rw [List.lookup_cons]
    by_cases hk : k = k'
    · subst hk; simp
    · simp [beq_eq_false_iff_ne.mpr hk, ih, hk]

theorem lookup_append_left {α β : Type} [DecidableEq α] {t₁ t₂ : List (α × β)}
    {k : α} {v : β} (h : List.lookup k t₁ = some v) :
    List.lookup k (t₁ ++ t₂) = some v := by
  induction t₁ with
  | nil => simp at h
  | cons hd tl ih =>
    obtain ⟨k', v'⟩ := hd
    rw [List.lookup_cons] at h
    rw [List.cons_append, List.lookup_cons]
    by_cases hk : k = k'
    · subst hk; simpa using h
    · simp only [beq_eq_false_iff_ne.mpr hk] at h ⊢
      exact ih h

theorem lookup_append_right {α β : Type} [DecidableEq α] {t₁ t₂ : List (α × β)}
    {k : α} (h : List.lookup k t₁ = none) :
    List.lookup k (t₁ ++ t₂) = List.lookup k t₂ := by
  induction t₁ with
  | nil => simp
  | cons hd tl ih =>
    obtain ⟨k', v'⟩ := hd
    rw [List.lookup_cons] at h
    rw [List.cons_append, List.lookup_cons]
    by_cases hk : k = k'
    · subst hk; simp at h
    · simp only [beq_eq_false_iff_ne.mpr hk] at h ⊢
      exact ih h

/- ------------------------------------------------------------------ -/
/- `PackageIndex::requires_update` (src/package/index.rs:55-69).       -/
/- ------------------------------------------------------------------ -/

/-- Update timestamps (`chrono::NaiveDateTime`) modelled as naturals; only
their total order is relevant. -/
abbrev UpdateTime := Nat

/-- Embedding of `PackageIndex::requires_update` (index.rs:55-69).  Its
filesystem interaction is reduced to the one observable: the locally
recorded header timestamp when `header.json` exists (`some t`) or `none`
when the file is missing.  The remote catalog timestamp is the second
argument.  The code returns `Ok(false)` when the header file is missing and
otherwise `Ok(header.update_time < remote_ver)`. -/
def requires_update (localHeader : Option UpdateTime) (remoteVer : UpdateTime) : Bool :=
  match localHeader with
  | none => false
  | some t => decide (t < remoteVer)

/- ------------------------------------------------------------------ -/
/- DependencyGraph (src/package/resolver.rs:30-152).                   -/
/- ------------------------------------------------------------------ -/

/-- The dummy root package reference placed at node index 0 by
`DependencyGraph::new` (resolver.rs:39). -/
def dummyRef : PackageReference := ⟨"@", "@", ⟨0, 0, 0⟩⟩

/-- Embedding of `DependencyGraph` (resolver.rs:30-33).  The petgraph
`Graph` is modelled by its node list (positions are petgraph node indices)
and its edge list; the `index: HashMap<String, NodeIndex>` side table is an
association list from loose-identity string to node index. -/
structure DependencyGraph where
  nodes : List PackageReference
  edges : List (Nat × Nat)
  index : List (String × Nat)
deriving DecidableEq, Repr

/-- Embedding of `DependencyGraph::new` (resolver.rs:36-46): one dummy root
node at index 0, empty side index. -/
def DependencyGraph.new : DependencyGraph := ⟨[dummyRef], [], []⟩

/-- Embedding of `DependencyGraph::add` (resolver.rs:66-77).  The Rust code
indexes `self.graph[node_index]`, which panics when out of range; in every
state reachable through this API the side index only holds in-range node
indices (the `Wf` invariant below), where `List.getD` coincides with the
panicking access. -/
def DependencyGraph.add (g : DependencyGraph) (value : PackageReference) : DependencyGraph :=
  match List.lookup value.toLooseIdentString g.index with
  | some i =>
    if (g.nodes.getD i dummyRef).version.ltb value.version then
      { g with nodes := g.nodes.set i value }
    else g
  | none =>
    { g with
      nodes := g.nodes ++ [value],
      index := g.index ++ [(value.toLooseIdentString, g.nodes.length)] }

/-- Embedding of `DependencyGraph::add_edge` (resolver.rs:80-85).  The Rust
`self.index[..]` lookups panic when the key is absent; the resolver only
calls this with both endpoints present, where `Option.getD _ 0` coincides. -/
def DependencyGraph.add_edge (g : DependencyGraph) (parent child : PackageReference) :
    DependencyGraph :=
  { g with
    edges := g.edges ++
      [((List.lookup parent.toLooseIdentString g.index).getD 0,
        (List.lookup child.toLooseIdentString g.index).getD 0)] }

/-- Embedding of `DependencyGraph::add_rooted_edge` (resolver.rs:87-90). -/
def DependencyGraph.add_rooted_edge (g : DependencyGraph) (child : PackageReference) :
    DependencyGraph :=
  { g with edges := g.edges ++ [(0, (List.lookup child.toLooseIdentString g.index).getD 0)] }

/-- Embedding of `Granularity` (resolver.rs:17-22). -/
inductive Granularity
  | all
  | ignoreVersion
  | lesserVersion
  | greaterVersion
deriving DecidableEq, Repr

/-- Embedding of `DependencyGraph::exists` (resolver.rs:93-110); named
`existsRef` because `exists` is reserved in Lean. -/
def DependencyGraph.existsRef (g : DependencyGraph) (value : PackageReference)
    (granularity : Granularity) : Bool :=
  match List.lookup value.toLooseIdentString g.index with
  | none => false
  | some i =>
    let graphValue := g.nodes.getD i dummyRef
    match granularity with
    | .all => graphValue.version == value.version
    | .ignoreVersion => true
    | .lesserVersion => graphValue.version.ltb value.version
    | .greaterVersion => value.version.ltb graphValue.version

/-- The node (if any) resident for a loose identity: the side-index lookup
followed by the node-list access, exactly the access path `add` and
`exists` use. -/
def DependencyGraph.resident (g : DependencyGraph) (L : String) : Option PackageReference :=
  match List.lookup L g.index with
  | none => none
  | some i => some (g.nodes.getD i dummyRef)

/-- Well-formedness maintained by the graph API: every side-index entry
points at an in-range node whose loose identity is the entry's key. -/
def Wf (g : DependencyGraph) : Prop :=
  ∀ p ∈ g.index, p.2 < g.nodes.length ∧
    (g.nodes.getD p.2 dummyRef).toLooseIdentString = p.1

theorem Wf_new : Wf DependencyGraph.new := by
  intro p hp
  simp [DependencyGraph.new] at hp

theorem Wf_add {g : DependencyGraph} (hwf : Wf g) (v : PackageReference) :
    Wf (g.add v) := by
  unfold DependencyGraph.add
  cases hl : List.lookup v.toLooseIdentString g.index with
  | some i =>
    have hi1 : i < g.nodes.length := (hwf _ (lookup_eq_some_mem hl)).1
    have hi2 : (g.nodes.getD i dummyRef).toLooseIdentString = v.toLooseIdentString :=
      (hwf _ (lookup_eq_some_mem hl)).2
    by_cases hv : (g.nodes.getD i dummyRef).version.ltb v.version = true
    · simp only [hv, if_true]
      intro p hp
      have hp' := hwf p hp
      simp only [List.length_set]
      refine ⟨hp'.1, ?_⟩
      by_cases hij : i = p.2
      · have hset : (g.nodes.set i v).getD p.2 dummyRef = v := by
          simp [List.getD_eq_getElem?_getD, List.getElem?_set, ← hij, hi1]
        rw [hset, ← hi2, hij]
        exact hp'.2
      · have : (g.nodes.set i v).getD p.2 dummyRef = g.nodes.getD p.2 dummyRef := by
          simp [List.getD_eq_getElem?_getD, List.getElem?_set_ne hij]
        rw [this]
        exact hp'.2
    · simp only [hv, if_false]
      exact hwf
  | none =>
    intro p hp
    simp only [List.mem_append, List.mem_singleton] at hp
    rcases hp with hp | hp
    · have hp' := hwf p hp
      simp only [List.length_append, List.length_singleton]
      refine ⟨Nat.lt_succ_of_lt hp'.1, ?_⟩
      have : (g.nodes ++ [v]).getD p.2 dummyRef = g.nodes.getD p.2 dummyRef := by
        simp [List.getD_eq_getElem?_getD, List.getElem?_append, hp'.1]
      rw [this]
      exact hp'.2
    · subst hp
      simp only [List.length_append, List.length_singleton]
      constructor
      · omega
      · simp [List.getD_eq_getElem?_getD]

theorem Version.ltb_false_trans {a b c : Version} (h₁ : a.ltb b = false)
    (h₂ : b.ltb c = false) : a.ltb c = false := by
  rw [Version.ltb_eq_false_iff] at h₁ h₂ ⊢
  omega

theorem add_eq_of_found_lt {g : DependencyGraph} {v : PackageReference} {i : Nat}
    (hl : List.lookup v.toLooseIdentString g.index = some i)
    (hv : (g.nodes.getD i dummyRef).version.ltb v.version = true) :
    g.add v = { g with nodes := g.nodes.set i v } := by
  unfold DependencyGraph.add
  rw [hl]
  simp only [List.getD_eq_getElem?_getD] at hv
  simp [hv]

theorem add_eq_of_found_ge {g : DependencyGraph} {v : PackageReference} {i : Nat}
    (hl : List.lookup v.toLooseIdentString g.index = some i)
    (hv : (g.nodes.getD i dummyRef).version.ltb v.version = false) :
    g.add v = g := by
  unfold DependencyGraph.add
  rw [hl]
  simp only [List.getD_eq_getElem?_getD] at hv
  simp [hv]

theorem add_eq_of_fresh {g : DependencyGraph} {v : PackageReference}
    (hl : List.lookup v.toLooseIdentString g.index = none) :
    g.add v =
      { g with
        nodes := g.nodes ++ [v],
        index := g.index ++ [(v.toLooseIdentString, g.nodes.length)] } := by
  unfold DependencyGraph.add
  rw [hl]

/-- One `add` step seen through `resident`: for the added value's loose
identity the resident becomes the version-wise greater of old resident and
new value (or the value itself when fresh); all other loose identities are
untouched. -/
theorem resident_add (g : DependencyGraph) (v : PackageReference) (L : String)
    (hwf : Wf g) :
    (g.add v).resident L =
      if v.toLooseIdentString = L then
        match g.resident L with
        | none => some v
        | some w => some (if w.version.ltb v.version then v else w)
      else g.resident L := by
  cases hl : List.lookup v.toLooseIdentString g.index with
  | some i =>
    have hi1 : i < g.nodes.length := (hwf _ (lookup_eq_some_mem hl)).1
    have hi2 : (g.nodes.getD i dummyRef).toLooseIdentString = v.toLooseIdentString :=
      (hwf _ (lookup_eq_some_mem hl)).2
    by_cases hv : (g.nodes.getD i dummyRef).version.ltb v.version = true
    · rw [add_eq_of_found_lt hl hv]
      by_cases hL : v.toLooseIdentString = L
      · subst hL
        rw [if_pos rfl]
        have hset : (g.nodes.set i v).getD i dummyRef = v := by
          simp [List.getD_eq_getElem?_getD, List.getElem?_set, hi1]
        show (match List.lookup v.toLooseIdentString g.index with
          | none => none
          | some k => some ((g.nodes.set i v).getD k dummyRef)) = _
        rw [hl]
        show some ((g.nodes.set i v).getD i dummyRef) =
          match (match List.lookup v.toLooseIdentString g.index with
            | none => none
            | some k => some (g.nodes.getD k dummyRef)) with
          | none => some v
          | some w => some (if w.version.ltb v.version then v else w)
        rw [hl]
        show some ((g.nodes.set i v).getD i dummyRef) =
          some (if (g.nodes.getD i dummyRef).version.ltb v.version then v
            else g.nodes.getD i dummyRef)
        rw [hset, if_pos hv]
      · rw [if_neg hL]
        have hj2 : ∀ j, List.lookup L g.index = some j →
            (g.nodes.set i v).getD j dummyRef = g.nodes.getD j dummyRef := by
          intro j hj
          have hjl : (g.nodes.getD j dummyRef).toLooseIdentString = L :=
            (hwf _ (lookup_eq_some_mem hj)).2
          have hij : i ≠ j := by
            intro he
            subst he
            exact hL (hi2 ▸ hjl ▸ rfl)
          simp [List.getD_eq_getElem?_getD, List.getElem?_set_ne hij]
        show (match List.lookup L g.index with
          | none => none
          | some k => some ((g.nodes.set i v).getD k dummyRef)) =
          match List.lookup L g.index with
          | none => none
          | some k => some (g.nodes.getD k dummyRef)
        cases hj : List.lookup L g.index with
        | none => rfl
        | some j =>
          show some ((g.nodes.set i v).getD j dummyRef) = some (g.nodes.getD j dummyRef)
          rw [hj2 j hj]
    · simp only [Bool.not_eq_true] at hv
      rw [add_eq_of_found_ge hl hv]
      by_cases hL : v.toLooseIdentString = L
      · subst hL
        rw [if_pos rfl]
        have hr : g.resident v.toLooseIdentString = some (g.nodes.getD i dummyRef) := by
          simp [DependencyGraph.resident, hl]
        rw [hr]
        have hneg : ¬((g.nodes.getD i dummyRef).version.ltb v.version = true) := by
          rw [hv]
          exact Bool.false_ne_true
        show some (g.nodes.getD i dummyRef) =
          some (if (g.nodes.getD i dummyRef).version.ltb v.version then v
            else g.nodes.getD i dummyRef)
        rw [if_neg hneg]
      · rw [if_neg hL]
  | none =>
    rw [add_eq_of_fresh hl]
    by_cases hL : v.toLooseIdentString = L
    · subst hL
      rw [if_pos rfl]
      have hr : g.resident v.toLooseIdentString = none := by
        simp [DependencyGraph.resident, hl]
      rw [hr]
      have hlook :
          List.lookup v.toLooseIdentString
            (g.index ++ [(v.toLooseIdentString, g.nodes.length)]) =
            some g.nodes.length := by
        rw [lookup_append_right hl]
        simp [List.lookup_cons]
      have happ : (g.nodes ++ [v]).getD g.nodes.length dummyRef = v := by
        simp [List.getD_eq_getElem?_getD]
      show (match List.lookup v.toLooseIdentString
          (g.index ++ [(v.toLooseIdentString, g.nodes.length)]) with
        | none => none
        | some k => some ((g.nodes ++ [v]).getD k dummyRef)) = some v
      rw [hlook]
      show some ((g.nodes ++ [v]).getD g.nodes.length dummyRef) = some v
      rw [happ]
    · rw [if_neg hL]
      cases hj : List.lookup L g.index with
      | none =>
        have hlook : List.lookup L (g.index ++ [(v.toLooseIdentString, g.nodes.length)]) =
            none := by
          rw [lookup_append_right hj]
          simp [List.lookup_cons, beq_eq_false_iff_ne.mpr (fun he => hL he.symm)]
        show (match List.lookup L (g.index ++ [(v.toLooseIdentString, g.nodes.length)]) with
          | none => none
          | some k => some ((g.nodes ++ [v]).getD k dummyRef)) = g.resident L
        rw [hlook]
        show none = g.resident L
        simp [DependencyGraph.resident, hj]
      | some j =>
        have hj1 : j < g.nodes.length := (hwf _ (lookup_eq_some_mem hj)).1
        have hlook : List.lookup L (g.index ++ [(v.toLooseIdentString, g.nodes.length)]) =
            some j := lookup_append_left hj
        have happ : (g.nodes ++ [v]).getD j dummyRef = g.nodes.getD j dummyRef := by
          simp [List.getD_eq_getElem?_getD, List.getElem?_append, hj1]
        show (match List.lookup L (g.index ++ [(v.toLooseIdentString, g.nodes.length)]) with
          | none => none
          | some k => some ((g.nodes ++ [v]).getD k dummyRef)) = g.resident L
        rw [hlook]
        show some ((g.nodes ++ [v]).getD j dummyRef) = g.resident L
        rw [happ]
        simp [DependencyGraph.resident, hj]

/-- Folding `add` over a list of references, as the resolver does. -/
def addAll (g : DependencyGraph) (vs : List PackageReference) : DependencyGraph :=
  vs.foldl DependencyGraph.add g

/-- A graph built from `new()` by a sequence of `add` calls. -/
def buildGraph (vs : List PackageReference) : DependencyGraph :=
  addAll DependencyGraph.new vs

theorem Wf_addAll (vs : List PackageReference) :
    ∀ g : DependencyGraph, Wf g → Wf (addAll g vs) := by
  induction vs with
  | nil => intro g hg; exact hg
  | cons u rest ih => intro g hg; exact ih (g.add u) (Wf_add hg u)

/-- The version-reconciliation semantics of repeated `add` for one loose
identity: keep the version-wise greater reference at each step. -/
def reconcile (acc : Option PackageReference) :
    List PackageReference → Option PackageReference
  | [] => acc
  | u :: rest =>
    reconcile
      (some (match acc with
        | none => u
        | some w => if w.version.ltb u.version then u else w)) rest

theorem addAll_resident (vs : List PackageReference) :
    ∀ g : DependencyGraph, Wf g → ∀ L : String,
      (addAll g vs).resident L =
        reconcile (g.resident L)
          (vs.filter (fun u => u.toLooseIdentString == L)) := by
  induction vs with
  | nil => intro g _ L; rfl
  | cons u rest ih =>
    intro g hg L
    have hstep := resident_add g u L hg
    by_cases hL : u.toLooseIdentString = L
    · rw [show addAll g (u :: rest) = addAll (g.add u) rest from rfl]
      rw [ih (g.add u) (Wf_add hg u) L, hstep]
      have hfil : (u :: rest).filter (fun x => x.toLooseIdentString == L) =
          u :: rest.filter (fun x => x.toLooseIdentString == L) := by
        simp [List.filter_cons, hL]
      rw [hfil]
      simp only [hL, if_true, reconcile]
      cases g.resident L <;> rfl
    · rw [show addAll g (u :: rest) = addAll (g.add u) rest from rfl]
      rw [ih (g.add u) (Wf_add hg u) L, hstep]
      have hfil : (u :: rest).filter (fun x => x.toLooseIdentString == L) =
          rest.filter (fun x => x.toLooseIdentString == L) := by
        simp [List.filter_cons, hL]
      rw [hfil, if_neg hL]

theorem reconcile_some_spec (us : List PackageReference) :
    ∀ w0 : PackageReference,
      ∃ w, reconcile (some w0) us = some w ∧ (w = w0 ∨ w ∈ us) ∧
        w.version.ltb w0.version = false ∧
        ∀ u ∈ us, w.version.ltb u.version = false := by
  induction us with
  | nil =>
    intro w0
    exact ⟨w0, rfl, Or.inl rfl, Version.ltb_irrefl _, by simp⟩
  | cons u rest ih =>
    intro w0
    by_cases hv : w0.version.ltb u.version = true
    · obtain ⟨w, heq, hmem, hge, hbound⟩ := ih u
      refine ⟨w, ?_, ?_, ?_, ?_⟩
      · simpa [reconcile, hv] using heq
      · rcases hmem with h | h
        · exact Or.inr (List.mem_cons.mpr (Or.inl h))
        · exact Or.inr (List.mem_cons_of_mem _ h)
      · exact Version.ltb_false_trans hge (Version.ltb_asymm hv)
      · intro x hx
        rcases List.mem_cons.mp hx with h | h
        · exact h ▸ hge
        · exact hbound x h
    · simp only [Bool.not_eq_true] at hv
      obtain ⟨w, heq, hmem, hge, hbound⟩ := ih w0
      refine ⟨w, ?_, ?_, ?_, ?_⟩
      · simpa [reconcile, hv] using heq
      · rcases hmem with h | h
        · exact Or.inl h
        · exact Or.inr (List.mem_cons_of_mem _ h)
      · exact hge
      · intro x hx
        rcases List.mem_cons.mp hx with h | h
        · exact h ▸ Version.ltb_false_trans hge hv
        · exact hbound x h

/-- Claim C2: for every dependency graph built by a sequence of `add` calls
starting from `new()`, the resident node for each loose identity present
carries the maximum version over all references with that loose identity
ever passed to `add` (the resident is itself one of the added references and
version-wise at least every added reference of that identity); and no single
`add` call on a well-formed graph ever lowers a resident node's version. -/
theorem add_keeps_max_version (vs : List PackageReference) (L : String)
    (hL : L ∈ vs.map PackageReference.toLooseIdentString) :
    (∃ w, (buildGraph vs).resident L = some w ∧ w ∈ vs ∧
        w.toLooseIdentString = L ∧
        ∀ u ∈ vs, u.toLooseIdentString = L → w.version.ltb u.version = false) ∧
    (∀ (g : DependencyGraph) (v w : PackageReference), Wf g →
        g.resident L = some w →
        ∃ w', (g.add v).resident L = some w' ∧ w'.version.ltb w.version = false) := by
  constructor
  · have hres := addAll_resident vs DependencyGraph.new Wf_new L
    have hnone : DependencyGraph.new.resident L = none := by
      simp [DependencyGraph.resident, DependencyGraph.new, List.lookup]
    rw [hnone] at hres
    rw [show buildGraph vs = addAll DependencyGraph.new vs from rfl]
    obtain ⟨u0, hu0, hloose⟩ := List.mem_map.mp hL
    have hu0f : u0 ∈ vs.filter (fun u => u.toLooseIdentString == L) :=
      List.mem_filter.mpr ⟨hu0, by simp [hloose]⟩
    cases hf : vs.filter (fun u => u.toLooseIdentString == L) with
    | nil => rw [hf] at hu0f; simp at hu0f
    | cons x rest =>
      rw [hf] at hres
      simp only [reconcile] at hres
      obtain ⟨w, heq, hmem, hge, hbound⟩ := reconcile_some_spec rest x
      have hwmem : w ∈ vs.filter (fun u => u.toLooseIdentString == L) := by
        rw [hf]
        rcases hmem with h | h
        · exact h ▸ List.mem_cons_self x rest
        · exact List.mem_cons_of_mem _ h
      have hwvs := List.mem_filter.mp hwmem
      refine ⟨w, ?_, hwvs.1, by simpa using hwvs.2, ?_⟩
      · rw [hres, heq]
      · intro u hu huL
        have huf : u ∈ vs.filter (fun u => u.toLooseIdentString == L) :=
          List.mem_filter.mpr ⟨hu, by simp [huL]⟩
        rw [hf] at huf
        rcases List.mem_cons.mp huf with h | h
        · exact h ▸ hge
        · exact hbound u h
  · intro g v w hwf hres
    have hstep := resident_add g v L hwf
    by_cases hL' : v.toLooseIdentString = L
    · rw [hres] at hstep
      simp only [hL', if_true] at hstep
      by_cases hv : w.version.ltb v.version = true
      · exact ⟨v, by rw [hstep]; simp [hv], Version.ltb_asymm hv⟩
      · simp only [Bool.not_eq_true] at hv
        exact ⟨w, by rw [hstep]; simp [hv], Version.ltb_irrefl _⟩
    · simp only [hL', if_false] at hstep
      exact ⟨w, hstep ▸ hres, Version.ltb_irrefl _⟩

/-- Witness for `add_keeps_max_version` at a concrete build: two versions of
the same loose identity, higher version added first. -/
theorem add_keeps_max_version_witness :
    "A-B" ∈ ([⟨"A", "B", ⟨2, 0, 0⟩⟩, ⟨"A", "B", ⟨1, 5, 0⟩⟩] :
        List PackageReference).map PackageReference.toLooseIdentString ∧
    ((∃ w, (buildGraph [⟨"A", "B", ⟨2, 0, 0⟩⟩, ⟨"A", "B", ⟨1, 5, 0⟩⟩]).resident "A-B" =
          some w ∧
        w ∈ ([⟨"A", "B", ⟨2, 0, 0⟩⟩, ⟨"A", "B", ⟨1, 5, 0⟩⟩] : List PackageReference) ∧
        w.toLooseIdentString = "A-B" ∧
        ∀ u ∈ ([⟨"A", "B", ⟨2, 0, 0⟩⟩, ⟨"A", "B", ⟨1, 5, 0⟩⟩] : List PackageReference),
          u.toLooseIdentString = "A-B" → w.version.ltb u.version = false) ∧
      (∀ (g : DependencyGraph) (v w : PackageReference), Wf g →
          g.resident "A-B" = some w →
          ∃ w', (g.add v).resident "A-B" = some w' ∧
            w'.version.ltb w.version = false)) :=
  ⟨by decide,
    add_keeps_max_version [⟨"A", "B", ⟨2, 0, 0⟩⟩, ⟨"A", "B", ⟨1, 5, 0⟩⟩] "A-B" (by decide)⟩

/-- Claim C7 (settled as a code bug): `requires_update` returns `false`
when the local `header.json` is missing, contradicting the claim, spec
§4.1, and the function's own doc comment (index.rs:50-54 "An update is
requires if any of the following conditions are true: ... Index does not
exist"); when the header is present it returns whether the local timestamp
is strictly older than the remote one, as claimed. -/
theorem requires_update_on_missing_header :
    requires_update none 5 = false ∧
      ∀ (t r : UpdateTime), requires_update (some t) r = decide (t < r) :=
  ⟨rfl, fun _ _ => rfl⟩

/- ------------------------------------------------------------------ -/
/- `DependencyGraph::graph_delta` (resolver.rs:154-213).               -/
/- ------------------------------------------------------------------ -/

/-- A digest: the list of package references produced by
`DependencyGraph::digest` (resolver.rs:139-152) in DFS post-order.
`graph_delta` consumes only the two digests, so it is embedded as a
function of them. -/
abbrev Digest := List PackageReference

/-- Embedding of `GraphDelta` (resolver.rs:24-28). -/
structure GraphDelta where
  add : List PackageReference
  del : List PackageReference
deriving DecidableEq, Repr

/-- The `loose ident string ↦ (digest position, reference)` lookup table
built at resolver.rs:157-169.  The Rust `HashMap` is an association list;
under the graphs' one-node-per-loose-identity invariant its keys are
distinct, which makes both duplicate-overwrite and iteration order
immaterial. -/
def looseTable (d : Digest) : List (String × Nat × PackageReference) :=
  d.enum.map (fun p => (p.2.toLooseIdentString, p))

/-- The first loop of `graph_delta` (resolver.rs:177-188), iterating the
self table against the other table and emitting `(index, reference)` pairs
for `add` and `del` in iteration order. -/
def deltaLoop (otherT : List (String × Nat × PackageReference)) :
    List (String × Nat × PackageReference) →
      List (Nat × PackageReference) × List (Nat × PackageReference)
  | [] => ([], [])
  | kv :: rest =>
    let acc := deltaLoop otherT rest
    match List.lookup kv.1 otherT with
    | some jw =>
      if kv.2.2.version.ltb jw.2.version then (jw :: acc.1, kv.2 :: acc.2)
      else acc
    | none => (acc.1, kv.2 :: acc.2)

/-- Stable insertion of one `(index, reference)` pair by index. -/
def insertByIdx (x : Nat × PackageReference) :
    List (Nat × PackageReference) → List (Nat × PackageReference)
  | [] => [x]
  | y :: ys => if x.1 < y.1 then x :: y :: ys else y :: insertByIdx x ys

/-- Stable sort by index, the model of `sort_by(|a, b| a.0.partial_cmp(b.0))`
(resolver.rs:199-201); Rust's `sort_by` is a stable sort, and on the
distinct indices arising here every comparison sort agrees with this one. -/
def sortByIdx : List (Nat × PackageReference) → List (Nat × PackageReference)
  | [] => []
  | x :: xs => insertByIdx x (sortByIdx xs)

/-- Embedding of `DependencyGraph::graph_delta` (resolver.rs:154-213) as a
function of the two digests: build the two loose tables, run the main loop,
extend `add` with the other-only entries (resolver.rs:192-197), sort both
lists by digest position and strip the positions. -/
def graph_delta (selfD otherD : Digest) : GraphDelta :=
  let selfT := looseTable selfD
  let otherT := looseTable otherD
  let acc := deltaLoop otherT selfT
  let add2 := otherT.filterMap (fun kv =>
    match List.lookup kv.1 selfT with
    | some _ => none
    | none => some kv.2)
  { add := (sortByIdx (acc.1 ++ add2)).map Prod.snd,
    del := (sortByIdx acc.2).map Prod.snd }

/-- The claim's characterization of `graph_delta`, written from the spec's
words: `del` keeps, in old-digest order, each old entry whose loose identity
is absent from the new digest or present there at a strictly greater
version; `add` keeps, in new-digest order, each new entry whose loose
identity is absent from the old digest or present there at a strictly
smaller version. -/
def graph_delta_spec (selfD otherD : Digest) : GraphDelta :=
  { add :=
      ((otherD.enum.filter (fun jw =>
        match List.lookup jw.2.toLooseIdentString (looseTable selfD) with
        | some iv => iv.2.version.ltb jw.2.version
        | none => true)).map Prod.snd),
    del :=
      ((selfD.enum.filter (fun iv =>
        match List.lookup iv.2.toLooseIdentString (looseTable otherD) with
        | some jw => iv.2.version.ltb jw.2.version
        | none => true)).map Prod.snd) }

theorem enumFrom_pairwise_lt {α : Type} (l : List α) :
    ∀ n : Nat, (List.enumFrom n l).Pairwise (fun a b => a.1 < b.1) := by
  induction l with
  | nil => intro n; simp
  | cons x xs ih =>
    intro n
    rw [List.enumFrom_cons]
    refine List.Pairwise.cons ?_ (ih (n + 1))
    intro b hb
    obtain ⟨i, y⟩ := b
    have := List.mem_enumFrom hb
    simp only
    omega

theorem enum_pairwise_lt {α : Type} (l : List α) :
    l.enum.Pairwise (fun a b => a.1 < b.1) :=
  enumFrom_pairwise_lt l 0

theorem looseTable_keys (d : Digest) :
    (looseTable d).map Prod.fst = d.map PackageReference.toLooseIdentString := by
  unfold looseTable
  rw [List.map_map]
  have : (Prod.fst ∘ fun p : Nat × PackageReference =>
      (p.2.toLooseIdentString, p)) = (PackageReference.toLooseIdentString ∘ Prod.snd) := rfl
  rw [this, ← List.map_map, List.enum_map_snd]

theorem looseTable_pairwise_pos (d : Digest) :
    (looseTable d).Pairwise (fun a b => a.2.1 < b.2.1) := by
  unfold looseTable
  rw [List.pairwise_map]
  exact enum_pairwise_lt d

theorem looseTable_mem_iff (d : Digest) {k : String} {x : Nat × PackageReference} :
    (k, x) ∈ looseTable d ↔ x ∈ d.enum ∧ k = x.2.toLooseIdentString := by
  unfold looseTable
  rw [List.mem_map]
  constructor
  · rintro ⟨p, hp, he⟩
    obtain ⟨h1, h2⟩ := Prod.mk.injEq .. ▸ he
    refine ⟨h2 ▸ hp, ?_⟩
    rw [← h2]
    exact h1.symm
  · rintro ⟨hx, hk⟩
    exact ⟨x, hx, by rw [hk]⟩

theorem deltaLoop_snd (otherT : List (String × Nat × PackageReference)) :
    ∀ l, (deltaLoop otherT l).2 = l.filterMap (fun kv =>
      match List.lookup kv.1 otherT with
      | some jw => if kv.2.2.version.ltb jw.2.version then some kv.2 else none
      | none => some kv.2) := by
  intro l
  induction l with
  | nil => rfl
  | cons kv rest ih =>
    rw [List.filterMap_cons]
    cases hlk : List.lookup kv.1 otherT with
    | some jw =>
      by_cases hv : kv.2.2.version.ltb jw.2.version = true
      · simp only [deltaLoop, hlk, hv, if_true]
        rw [← ih]
      · simp only [Bool.not_eq_true] at hv
        simp [deltaLoop, hlk, hv, ih]
    | none =>
      simp only [deltaLoop, hlk]
      rw [← ih]

theorem deltaLoop_fst (otherT : List (String × Nat × PackageReference)) :
    ∀ l, (deltaLoop otherT l).1 = l.filterMap (fun kv =>
      match List.lookup kv.1 otherT with
      | some jw => if kv.2.2.version.ltb jw.2.version then some jw else none
      | none => none) := by
  intro l
  induction l with
  | nil => rfl
  | cons kv rest ih =>
    rw [List.filterMap_cons]
    cases hlk : List.lookup kv.1 otherT with
    | some jw =>
      by_cases hv : kv.2.2.version.ltb jw.2.version = true
      · simp only [deltaLoop, hlk, hv, if_true]
        rw [← ih]
      · simp only [Bool.not_eq_true] at hv
        simp [deltaLoop, hlk, hv, ih]
    | none =>
      simp only [deltaLoop, hlk]
      rw [← ih]

theorem filterMap_if_eq_filter {α : Type} (p : α → Bool) (l : List α) :
    l.filterMap (fun x => if p x then some x else none) = l.filter p := by
  induction l with
  | nil => rfl
  | cons x xs ih =>
    rw [List.filterMap_cons, List.filter_cons]
    by_cases hx : p x = true
    · simp [hx, ih]
    · simp only [Bool.not_eq_true] at hx
      simp [hx, ih]

theorem insertByIdx_perm (x : Nat × PackageReference) :
    ∀ l, (insertByIdx x l).Perm (x :: l) := by
  intro l
  induction l with
  | nil => exact List.Perm.refl _
  | cons y ys ih =>
    unfold insertByIdx
    by_cases h : x.1 < y.1
    · simp only [h, if_true]
      exact List.Perm.refl _
    · simp only [h, if_false]
      exact (List.Perm.cons y ih).trans (List.Perm.swap x y ys)

theorem sortByIdx_perm : ∀ l, (sortByIdx l).Perm l := by
  intro l
  induction l with
  | nil => exact List.Perm.refl _
  | cons x xs ih =>
    unfold sortByIdx
    exact (insertByIdx_perm x (sortByIdx xs)).trans (List.Perm.cons x ih)

theorem insertByIdx_pairwise (x : Nat × PackageReference) :
    ∀ l, l.Pairwise (fun a b => a.1 ≤ b.1) →
      (insertByIdx x l).Pairwise (fun a b => a.1 ≤ b.1) := by
  intro l
  induction l with
  | nil => intro _; simp [insertByIdx]
  | cons y ys ih =>
    intro hp
    obtain ⟨hy, hys⟩ := List.pairwise_cons.mp hp
    unfold insertByIdx
    by_cases h : x.1 < y.1
    · simp only [h, if_true]
      refine List.Pairwise.cons ?_ hp
      intro b hb
      rcases List.mem_cons.mp hb with hb | hb
      · subst hb
        omega
      · have hyb := hy b hb
        simp only at hyb
        omega
    · simp only [h, if_false]
      refine List.pairwise_cons.mpr ⟨?_, ih hys⟩
      intro b hb
      have hmem := (insertByIdx_perm x ys).mem_iff.mp hb
      rcases List.mem_cons.mp hmem with hb' | hb'
      · subst hb'
        exact Nat.le_of_not_lt h
      · exact hy b hb'

theorem sortByIdx_pairwise : ∀ l, (sortByIdx l).Pairwise (fun a b => a.1 ≤ b.1) := by
  intro l
  induction l with
  | nil => simp [sortByIdx]
  | cons x xs ih => exact insertByIdx_pairwise x (sortByIdx xs) ih

theorem sortByIdx_eq_self : ∀ l, l.Pairwise (fun a b => a.1 < b.1) → sortByIdx l = l := by
  intro l
  induction l with
  | nil => intro _; rfl
  | cons x xs ih =>
    intro hp
    obtain ⟨hx, hxs⟩ := List.pairwise_cons.mp hp
    unfold sortByIdx
    rw [ih hxs]
    cases xs with
    | nil => rfl
    | cons y ys =>
      unfold insertByIdx
      rw [if_pos (hx y (List.mem_cons_self y ys))]

theorem eq_of_perm_of_pairwise_lt :
    ∀ (l₁ l₂ : List (Nat × PackageReference)), l₁.Perm l₂ →
      l₁.Pairwise (fun a b => a.1 < b.1) → l₂.Pairwise (fun a b => a.1 < b.1) →
      l₁ = l₂ := by
  intro l₁
  induction l₁ with
  | nil =>
    intro l₂ hperm _ _
    exact (List.Perm.nil_eq hperm).symm ▸ rfl
  | cons x xs ih =>
    intro l₂ hperm hp₁ hp₂
    cases l₂ with
    | nil => exact absurd hperm.symm (by simp)
    | cons y ys =>
      obtain ⟨hx1, hxs1⟩ := List.pairwise_cons.mp hp₁
      obtain ⟨hy2, hys2⟩ := List.pairwise_cons.mp hp₂
      have hxy : x = y := by
        have hxmem : x ∈ y :: ys := hperm.mem_iff.mp (List.mem_cons_self x xs)
        have hymem : y ∈ x :: xs := hperm.symm.mem_iff.mp (List.mem_cons_self y ys)
        rcases List.mem_cons.mp hxmem with h | h
        · exact h
        · rcases List.mem_cons.mp hymem with h' | h'
          · exact h'.symm
          · have h₁ := hy2 x h
            have h₂ := hx1 y h'
            omega
      subst hxy
      have hperm' : xs.Perm ys := (List.perm_cons x).mp hperm
      rw [ih ys hperm' hxs1 hys2]

theorem key_unique_of_pairwise_pos {t : List (String × Nat × PackageReference)}
    (hp : t.Pairwise (fun a b => a.2.1 < b.2.1)) {k₁ k₂ : String}
    {x : Nat × PackageReference} (h₁ : (k₁, x) ∈ t) (h₂ : (k₂, x) ∈ t) :
    k₁ = k₂ := by
  induction t with
  | nil => simp at h₁
  | cons hd tl ih =>
    obtain ⟨hh, hp'⟩ := List.pairwise_cons.mp hp
    rcases List.mem_cons.mp h₁ with h₁' | h₁' <;>
      rcases List.mem_cons.mp h₂ with h₂' | h₂'
    · rw [← h₁'] at h₂'
      exact (Prod.mk.injEq .. ▸ h₂').1.symm
    · exfalso
      have := hh _ h₂'
      rw [← h₁'] at this
      simp only at this
      omega
    · exfalso
      have := hh _ h₁'
      rw [← h₂'] at this
      simp only at this
      omega
    · exact ih hp' h₁' h₂'

theorem val_unique_of_keys_nodup {t : List (String × Nat × PackageReference)}
    (hnd : (t.map Prod.fst).Nodup) {k : String} {u u' : Nat × PackageReference}
    (h₁ : (k, u) ∈ t) (h₂ : (k, u') ∈ t) : u = u' := by
  have e₁ := lookup_eq_some_of_mem hnd h₁
  have e₂ := lookup_eq_some_of_mem hnd h₂
  rw [e₁] at e₂
  exact Option.some.injEq .. ▸ e₂

theorem delFun_eq_if (T : List (String × Nat × PackageReference))
    (p : Nat × PackageReference) :
    (match List.lookup p.2.toLooseIdentString T with
      | some jw => if p.2.version.ltb jw.2.version then some p else none
      | none => some p) =
    (if (match List.lookup p.2.toLooseIdentString T with
      | some jw => p.2.version.ltb jw.2.version
      | none => true) then some p else none) := by
  cases List.lookup p.2.toLooseIdentString T with
  | none => rfl
  | some jw =>
    by_cases hv : p.2.version.ltb jw.2.version = true
    · simp [hv]
    · simp only [Bool.not_eq_true] at hv
      simp [hv]

theorem addSpecFun_eq_if (T : List (String × Nat × PackageReference))
    (p : Nat × PackageReference) :
    (match List.lookup p.2.toLooseIdentString T with
      | some iv => if iv.2.version.ltb p.2.version then some p else none
      | none => some p) =
    (if (match List.lookup p.2.toLooseIdentString T with
      | some iv => iv.2.version.ltb p.2.version
      | none => true) then some p else none) := by
  cases List.lookup p.2.toLooseIdentString T with
  | none => rfl
  | some iv =>
    by_cases hv : iv.2.version.ltb p.2.version = true
    · simp [hv]
    · simp only [Bool.not_eq_true] at hv
      simp [hv]

/-- The pairs destined for `del`, with their digest positions, are exactly
the old-digest entries the claim names, in digest order. -/
theorem deltaLoop_del_eq_filter (selfD otherD : Digest) :
    (deltaLoop (looseTable otherD) (looseTable selfD)).2 =
      selfD.enum.filter (fun iv =>
        match List.lookup iv.2.toLooseIdentString (looseTable otherD) with
        | some jw => iv.2.version.ltb jw.2.version
        | none => true) := by
  rw [deltaLoop_snd]
  conv_lhs => rw [show looseTable selfD =
    selfD.enum.map (fun p => (p.2.toLooseIdentString, p)) from rfl]
  rw [List.filterMap_map]
  refine (List.filterMap_congr ?_).trans (filterMap_if_eq_filter _ _)
  intro p _
  exact delFun_eq_if (looseTable otherD) p

/-- The spec-side `add` pairs with their digest positions. -/
def addSpecPairs (selfD otherD : Digest) : List (Nat × PackageReference) :=
  (looseTable otherD).filterMap (fun kv =>
    match List.lookup kv.1 (looseTable selfD) with
    | some iv => if iv.2.version.ltb kv.2.2.version then some kv.2 else none
    | none => some kv.2)

theorem addSpecPairs_eq_filter (selfD otherD : Digest) :
    addSpecPairs selfD otherD =
      otherD.enum.filter (fun jw =>
        match List.lookup jw.2.toLooseIdentString (looseTable selfD) with
        | some iv => iv.2.version.ltb jw.2.version
        | none => true) := by
  unfold addSpecPairs
  conv_lhs => rw [show looseTable otherD =
    otherD.enum.map (fun p => (p.2.toLooseIdentString, p)) from rfl]
  rw [List.filterMap_map]
  refine (List.filterMap_congr ?_).trans (filterMap_if_eq_filter _ _)
  intro p _
  exact addSpecFun_eq_if (looseTable selfD) p

theorem addSpecPairs_pairwise (selfD otherD : Digest) :
    (addSpecPairs selfD otherD).Pairwise (fun a b => a.1 < b.1) := by
  rw [addSpecPairs_eq_filter]
  refine List.Pairwise.sublist (List.filter_sublist _) ?_
  exact enum_pairwise_lt otherD

theorem del_pairwise (selfD otherD : Digest) :
    (deltaLoop (looseTable otherD) (looseTable selfD)).2.Pairwise
      (fun a b => a.1 < b.1) := by
  rw [deltaLoop_del_eq_filter]
  refine List.Pairwise.sublist (List.filter_sublist _) ?_
  exact enum_pairwise_lt selfD

theorem nodup_of_pairwise_lt {l : List (Nat × PackageReference)}
    (h : l.Pairwise (fun a b => a.1 < b.1)) : l.Nodup :=
  h.imp (fun hlt => by
    intro he
    subst he
    omega)

theorem pairwise_lt_of_le_of_fst_nodup {l : List (Nat × PackageReference)}
    (h1 : l.Pairwise (fun a b => a.1 ≤ b.1))
    (h2 : (l.map Prod.fst).Nodup) : l.Pairwise (fun a b => a.1 < b.1) := by
  have h3 : l.Pairwise (fun a b => a.1 ≠ b.1) := List.pairwise_map.mp h2
  exact (h1.and h3).imp (fun hab => Nat.lt_of_le_of_ne hab.1 hab.2)

theorem addFun_emits {otherT : List (String × Nat × PackageReference)}
    {kv : String × Nat × PackageReference} {x : Nat × PackageReference}
    (h : (match List.lookup kv.1 otherT with
      | some jw => if kv.2.2.version.ltb jw.2.version then some jw else none
      | none => none) = some x) :
    List.lookup kv.1 otherT = some x ∧ kv.2.2.version.ltb x.2.version = true := by
  revert h
  cases hlk : List.lookup kv.1 otherT with
  | none => intro h; simp at h
  | some jw =>
    by_cases hv : kv.2.2.version.ltb jw.2.version = true
    · simp only [hv, if_true]
      intro h
      obtain rfl : jw = x := Option.some.injEq .. ▸ h
      exact ⟨rfl, hv⟩
    · simp only [Bool.not_eq_true] at hv
      simp [hv]

theorem addOnlyFun_emits {selfT : List (String × Nat × PackageReference)}
    {kv : String × Nat × PackageReference} {x : Nat × PackageReference}
    (h : (match List.lookup kv.1 selfT with
      | some _ => none
      | none => some kv.2) = some x) :
    List.lookup kv.1 selfT = none ∧ x = kv.2 := by
  revert h
  cases hlk : List.lookup kv.1 selfT with
  | none =>
    intro h
    exact ⟨rfl, (Option.some.injEq .. ▸ h).symm⟩
  | some iv => intro h; simp at h

/-- Membership in the code's accumulated `add` pairs coincides with the
spec-side `add` pairs, under the one-node-per-loose-identity hypotheses. -/
theorem mem_addPairs_iff (selfD otherD : Digest)
    (hs : (selfD.map PackageReference.toLooseIdentString).Nodup)
    (ho : (otherD.map PackageReference.toLooseIdentString).Nodup)
    (x : Nat × PackageReference) :
    (x ∈ (deltaLoop (looseTable otherD) (looseTable selfD)).1 ++
        (looseTable otherD).filterMap (fun kv =>
          match List.lookup kv.1 (looseTable selfD) with
          | some _ => none
          | none => some kv.2)) ↔
      x ∈ addSpecPairs selfD otherD := by
  have hsk : ((looseTable selfD).map Prod.fst).Nodup := by
    rw [looseTable_keys]; exact hs
  have hok : ((looseTable otherD).map Prod.fst).Nodup := by
    rw [looseTable_keys]; exact ho
  rw [List.mem_append, deltaLoop_fst]
  unfold addSpecPairs
  constructor
  · rintro (h | h)
    · obtain ⟨a, ha, hfa⟩ := List.mem_filterMap.mp h
      obtain ⟨hlk, hlt⟩ := addFun_emits hfa
      have hmem : (a.1, x) ∈ looseTable otherD := lookup_eq_some_mem hlk
      have hself : List.lookup a.1 (looseTable selfD) = some a.2 := by
        refine lookup_eq_some_of_mem hsk ?_
        obtain ⟨k, u⟩ := a
        exact ha
      refine List.mem_filterMap.mpr ⟨(a.1, x), hmem, ?_⟩
      show (match List.lookup a.1 (looseTable selfD) with
        | some iv => if iv.2.version.ltb x.2.version then some x else none
        | none => some x) = some x
      rw [hself]
      simp [hlt]
    · obtain ⟨b, hb, hfb⟩ := List.mem_filterMap.mp h
      obtain ⟨hnone, hx⟩ := addOnlyFun_emits hfb
      refine List.mem_filterMap.mpr ⟨b, hb, ?_⟩
      show (match List.lookup b.1 (looseTable selfD) with
        | some iv => if iv.2.version.ltb b.2.2.version then some b.2 else none
        | none => some b.2) = some x
      rw [hnone, hx]
  · intro h
    obtain ⟨b, hb, hfb⟩ := List.mem_filterMap.mp h
    revert hfb
    cases hlks : List.lookup b.1 (looseTable selfD) with
    | none =>
      intro hfb
      simp only at hfb
      obtain rfl : b.2 = x := Option.some.injEq .. ▸ hfb
      refine Or.inr (List.mem_filterMap.mpr ⟨b, hb, ?_⟩)
      show (match List.lookup b.1 (looseTable selfD) with
        | some _ => none
        | none => some b.2) = some b.2
      rw [hlks]
    | some iv =>
      intro hfb
      simp only at hfb
      by_cases hv : iv.2.version.ltb b.2.2.version = true
      · rw [if_pos hv] at hfb
        obtain rfl : b.2 = x := Option.some.injEq .. ▸ hfb
        have hivmem : (b.1, iv) ∈ looseTable selfD := lookup_eq_some_mem hlks
        have hlkother : List.lookup b.1 (looseTable otherD) = some b.2 := by
          refine lookup_eq_some_of_mem hok ?_
          obtain ⟨k, u⟩ := b
          exact hb
        refine Or.inl (List.mem_filterMap.mpr ⟨(b.1, iv), hivmem, ?_⟩)
        show (match List.lookup b.1 (looseTable otherD) with
          | some jw => if iv.2.version.ltb jw.2.version then some jw else none
          | none => none) = some b.2
        rw [hlkother]
        simp [hv]
      · rw [if_neg hv] at hfb
        exact absurd hfb (by simp)

theorem addPairs_nodup (selfD otherD : Digest)
    (hs : (selfD.map PackageReference.toLooseIdentString).Nodup)
    (ho : (otherD.map PackageReference.toLooseIdentString).Nodup) :
    ((deltaLoop (looseTable otherD) (looseTable selfD)).1 ++
      (looseTable otherD).filterMap (fun kv =>
        match List.lookup kv.1 (looseTable selfD) with
        | some _ => none
        | none => some kv.2)).Nodup := by
  have hsk : ((looseTable selfD).map Prod.fst).Nodup := by
    rw [looseTable_keys]; exact hs
  have hopos := looseTable_pairwise_pos otherD
  rw [List.nodup_append]
  refine ⟨?_, ?_, ?_⟩
  · -- first loop's output: distinct keys of the self table find distinct
    -- entries of the other table
    rw [deltaLoop_fst]
    have hkeyne : (looseTable selfD).Pairwise (fun a b => a.1 ≠ b.1) :=
      List.pairwise_map.mp hsk
    have hpw : ((looseTable selfD).filterMap (fun kv =>
        match List.lookup kv.1 (looseTable otherD) with
        | some jw => if kv.2.2.version.ltb jw.2.version then some jw else none
        | none => none)).Pairwise (fun a b => a ≠ b) := by
      refine List.Pairwise.filterMap _ ?_ hkeyne
      intro a a' hne b hb b' hb'
      obtain ⟨hlk, _⟩ := addFun_emits (Option.mem_def.mp hb)
      obtain ⟨hlk', _⟩ := addFun_emits (Option.mem_def.mp hb')
      intro he
      subst he
      exact hne (key_unique_of_pairwise_pos hopos (lookup_eq_some_mem hlk)
        (lookup_eq_some_mem hlk'))
    exact hpw
  · -- other-only entries inherit the other table's strictly increasing
    -- digest positions
    refine nodup_of_pairwise_lt ?_
    refine List.Pairwise.filterMap _ ?_ hopos
    intro a a' hr b hb b' hb'
    obtain ⟨_, hxb⟩ := addOnlyFun_emits (Option.mem_def.mp hb)
    obtain ⟨_, hxb'⟩ := addOnlyFun_emits (Option.mem_def.mp hb')
    subst hxb hxb'
    exact hr
  · -- the two halves are key-disjoint
    intro x hx1 hx2
    rw [deltaLoop_fst] at hx1
    obtain ⟨a, ha, hfa⟩ := List.mem_filterMap.mp hx1
    obtain ⟨hlk, _⟩ := addFun_emits hfa
    obtain ⟨b, hb, hfb⟩ := List.mem_filterMap.mp hx2
    obtain ⟨hnone, hxv⟩ := addOnlyFun_emits hfb
    have h1 : (a.1, x) ∈ looseTable otherD := lookup_eq_some_mem hlk
    have h2 : (b.1, x) ∈ looseTable otherD := by
      rw [hxv]
      exact hb
    have hkey : a.1 = b.1 := key_unique_of_pairwise_pos hopos h1 h2
    have hmem : a.1 ∈ (looseTable selfD).map Prod.fst :=
      List.mem_map.mpr ⟨a, ha, rfl⟩
    rw [hkey] at hmem
    exact (lookup_eq_none_iff.mp hnone) hmem

theorem graph_delta_add_def (selfD otherD : Digest) :
    (graph_delta selfD otherD).add =
      (sortByIdx ((deltaLoop (looseTable otherD) (looseTable selfD)).1 ++
        (looseTable otherD).filterMap (fun kv =>
          match List.lookup kv.1 (looseTable selfD) with
          | some _ => none
          | none => some kv.2))).map Prod.snd := rfl

theorem graph_delta_del_def (selfD otherD : Digest) :
    (graph_delta selfD otherD).del =
      (sortByIdx (deltaLoop (looseTable otherD) (looseTable selfD)).2).map Prod.snd := rfl

theorem graph_delta_del_eq (selfD otherD : Digest) :
    (graph_delta selfD otherD).del = (graph_delta_spec selfD otherD).del := by
  rw [graph_delta_del_def, sortByIdx_eq_self _ (del_pairwise selfD otherD),
    deltaLoop_del_eq_filter]
  rfl

theorem graph_delta_add_eq (selfD otherD : Digest)
    (hs : (selfD.map PackageReference.toLooseIdentString).Nodup)
    (ho : (otherD.map PackageReference.toLooseIdentString).Nodup) :
    (graph_delta selfD otherD).add = (graph_delta_spec selfD otherD).add := by
  rw [graph_delta_add_def]
  set pairs := (deltaLoop (looseTable otherD) (looseTable selfD)).1 ++
    (looseTable otherD).filterMap (fun kv =>
      match List.lookup kv.1 (looseTable selfD) with
      | some _ => none
      | none => some kv.2) with hpairs
  have hperm : pairs.Perm (addSpecPairs selfD otherD) := by
    refine (List.perm_ext_iff_of_nodup (addPairs_nodup selfD otherD hs ho) ?_).mpr ?_
    · exact nodup_of_pairwise_lt (addSpecPairs_pairwise selfD otherD)
    · intro x
      exact mem_addPairs_iff selfD otherD hs ho x
  have hsortperm : (sortByIdx pairs).Perm (addSpecPairs selfD otherD) :=
    (sortByIdx_perm pairs).trans hperm
  have hfst : ((sortByIdx pairs).map Prod.fst).Nodup := by
    refine (List.Perm.nodup_iff (List.Perm.map Prod.fst hsortperm)).mpr ?_
    have hne : (addSpecPairs selfD otherD).Pairwise (fun a b => a.1 ≠ b.1) :=
      (addSpecPairs_pairwise selfD otherD).imp (fun h => Nat.ne_of_lt h)
    exact List.pairwise_map.mpr hne
  have hsorted : (sortByIdx pairs).Pairwise (fun a b => a.1 < b.1) :=
    pairwise_lt_of_le_of_fst_nodup (sortByIdx_pairwise pairs) hfst
  have heq : sortByIdx pairs = addSpecPairs selfD otherD :=
    eq_of_perm_of_pairwise_lt _ _ hsortperm hsorted (addSpecPairs_pairwise selfD otherD)
  rw [heq, addSpecPairs_eq_filter]
  rfl

/-- Claim C1: for the digests of two dependency graphs (each with at most
one node per loose identity, the data-model invariant), `graph_delta`
returns exactly the claim's delta: `del` holds, sorted ascending by old
digest position, every old reference whose loose identity is absent from
the new digest or present there at a strictly greater version; `add` holds,
sorted ascending by new digest position, every new reference whose loose
identity is absent from the old digest or present there at a strictly
smaller version; and nothing else. -/
theorem graph_delta_exact (selfD otherD : Digest)
    (hs : (selfD.map PackageReference.toLooseIdentString).Nodup)
    (ho : (otherD.map PackageReference.toLooseIdentString).Nodup) :
    graph_delta selfD otherD = graph_delta_spec selfD otherD := by
  have h1 := graph_delta_add_eq selfD otherD hs ho
  have h2 := graph_delta_del_eq selfD otherD
  cases he : graph_delta selfD otherD with
  | mk a d =>
    cases he' : graph_delta_spec selfD otherD with
    | mk a' d' =>
      rw [he, he'] at h1 h2
      simp only at h1 h2
      rw [h1, h2]

/-- Witness for `graph_delta_exact` on concrete digests: one package
removed, one upgraded, one added. -/
theorem graph_delta_exact_witness :
    (([⟨"A", "A", ⟨1, 0, 0⟩⟩, ⟨"B", "B", ⟨1, 0, 0⟩⟩] :
        Digest).map PackageReference.toLooseIdentString).Nodup ∧
    (([⟨"B", "B", ⟨2, 0, 0⟩⟩, ⟨"C", "C", ⟨1, 0, 0⟩⟩] :
        Digest).map PackageReference.toLooseIdentString).Nodup ∧
    graph_delta [⟨"A", "A", ⟨1, 0, 0⟩⟩, ⟨"B", "B", ⟨1, 0, 0⟩⟩]
        [⟨"B", "B", ⟨2, 0, 0⟩⟩, ⟨"C", "C", ⟨1, 0, 0⟩⟩] =
      graph_delta_spec [⟨"A", "A", ⟨1, 0, 0⟩⟩, ⟨"B", "B", ⟨1, 0, 0⟩⟩]
        [⟨"B", "B", ⟨2, 0, 0⟩⟩, ⟨"C", "C", ⟨1, 0, 0⟩⟩] :=
  ⟨by decide, by decide,
    graph_delta_exact [⟨"A", "A", ⟨1, 0, 0⟩⟩, ⟨"B", "B", ⟨1, 0, 0⟩⟩]
      [⟨"B", "B", ⟨2, 0, 0⟩⟩, ⟨"C", "C", ⟨1, 0, 0⟩⟩] (by decide) (by decide)⟩

/- ------------------------------------------------------------------ -/
/- `resolve_packages` (src/package/resolver.rs:225-272).               -/
/- ------------------------------------------------------------------ -/

/-- Embedding of `PackageIndexEntry` (src/ts/experimental/index.rs:15-24). -/
structure PackageIndexEntry where
  nspace : String
  name : String
  version : Version
  file_format : Option String
  file_size : Nat
  dependencies : List PackageReference
deriving DecidableEq, Repr

/-- Embedding of the `Error` enum (src/error.rs:8-100), payloads reduced to
plain data.  The point preserved is its exact set of variants: in
particular there is no `PackageNotFound` variant. -/
inductive Error where
  | apiError
  | fileNotFound (path : String)
  | directoryNotFound (path : String)
  | networkError
  | projectDirIsFile (path : String)
  | projectAlreadyExists (path : String)
  | genericIoError
  | fileIoError (path : String)
  | invalidVersion
  | failedDeserializeProject
  | noProjectFile (path : String)
  | zipError
  | missingTable (table : String)
  | missingRepository
  | missingAuthToken
  | invalidGameId (id : String)
  | jsonParserError
  | tomlSerializer
  | installerNoManifest
  | installerNotExecutable
  | installerBadVersion
  | installerBadResponse
  | installerError (message : String)
  | badGameId (id : String)
deriving DecidableEq, Repr

/-- The package index as the resolver consumes it: `get_package` reduced to
a strict-reference association list. -/
abbrev ResolverIndex := List (PackageReference × PackageIndexEntry)

/-- Outcome of a resolver run.  `err` is the `Result::Err` channel of the
Rust signature (fed only by `PackageIndex::open`, outside this model);
`panicMissing` is the `unwrap_or_else(|| panic!(..))` abort at
resolver.rs:236; `outOfFuel` marks the iteration bound of the embedding
(the Rust loop can run forever on same-version dependency cycles). -/
inductive ResolveResult where
  | ok (graph : DependencyGraph)
  | err (e : Error)
  | panicMissing (missing : PackageReference)
  | outOfFuel
deriving DecidableEq, Repr

/-- The dependency pass of one loop iteration (resolver.rs:241-258): a
dependency for which the graph already holds a strictly greater version
only contributes an edge; otherwise it is added, wired, and enqueued. -/
def processDeps (parent : PackageReference) (deps : List PackageReference)
    (g : DependencyGraph) (queue : List PackageReference) :
    DependencyGraph × List PackageReference :=
  deps.foldl (fun acc dep =>
    if acc.1.existsRef dep Granularity.greaterVersion then
      (acc.1.add_edge parent dep, acc.2)
    else
      ((acc.1.add dep).add_edge parent dep, acc.2 ++ [dep]))
    (g, queue)

/-- The resolver's work-queue loop (resolver.rs:233-259) with explicit
fuel.  A dequeued reference absent from the index aborts everything via
`panicMissing`. -/
def resolveLoop (index : ResolverIndex) :
    Nat → List PackageReference → DependencyGraph → ResolveResult
  | _, [], g => .ok g
  | 0, _ :: _, _ => .outOfFuel
  | fuel + 1, r :: queue, g =>
    match List.lookup r index with
    | none => .panicMissing r
    | some entry =>
      let g' := g.add r
      let state := processDeps r entry.dependencies g' queue
      resolveLoop index fuel state.2 state.1

/-- Embedding of `resolve_packages` (resolver.rs:225-272): run the loop on
a fresh graph with the inputs queued, then wire the root edges
(resolver.rs:261-263). -/
def resolve_packages (fuel : Nat) (index : ResolverIndex)
    (packages : List PackageReference) : ResolveResult :=
  match resolveLoop index fuel packages DependencyGraph.new with
  | .ok g => .ok (packages.foldl (fun g p => g.add_rooted_edge p) g)
  | r => r

theorem processDeps_queue_extends (parent : PackageReference)
    (deps : List PackageReference) :
    ∀ (g : DependencyGraph) (q : List PackageReference),
      ∃ extra, (processDeps parent deps g q).2 = q ++ extra := by
  induction deps with
  | nil =>
    intro g q
    exact ⟨[], (List.append_nil q).symm⟩
  | cons d ds ih =>
    intro g q
    unfold processDeps
    rw [List.foldl_cons]
    by_cases hd : g.existsRef d Granularity.greaterVersion = true
    · simp only [hd, if_true]
      exact ih (g.add_edge parent d) q
    · simp only [Bool.not_eq_true] at hd
      simp only [hd, Bool.false_eq_true, if_false]
      obtain ⟨extra, hextra⟩ := ih ((g.add d).add_edge parent d) (q ++ [d])
      refine ⟨d :: extra, ?_⟩
      unfold processDeps at hextra
      rw [hextra, List.append_assoc]
      rfl

theorem resolveLoop_no_err (index : ResolverIndex) :
    ∀ (fuel : Nat) (queue : List PackageReference) (g : DependencyGraph)
      (e : Error), resolveLoop index fuel queue g ≠ .err e := by
  intro fuel
  induction fuel with
  | zero =>
    intro queue g e
    cases queue with
    | nil => exact fun h => ResolveResult.noConfusion h
    | cons r qs => exact fun h => ResolveResult.noConfusion h
  | succ n ih =>
    intro queue g e
    cases queue with
    | nil => exact fun h => ResolveResult.noConfusion h
    | cons r qs =>
      show resolveLoop index (n + 1) (r :: qs) g ≠ .err e
      unfold resolveLoop
      cases List.lookup r index with
      | none => exact fun h => ResolveResult.noConfusion h
      | some entry => exact ih _ _ e

theorem resolveLoop_no_ok_of_missing (index : ResolverIndex) :
    ∀ (fuel : Nat) (queue : List PackageReference) (g : DependencyGraph)
      (p : PackageReference), p ∈ queue → List.lookup p index = none →
      ∀ g', resolveLoop index fuel queue g ≠ .ok g' := by
  intro fuel
  induction fuel with
  | zero =>
    intro queue g p hp hmiss g'
    cases queue with
    | nil => exact absurd hp (List.not_mem_nil p)
    | cons r qs => exact fun h => ResolveResult.noConfusion h
  | succ n ih =>
    intro queue g p hp hmiss g'
    cases queue with
    | nil => exact absurd hp (List.not_mem_nil p)
    | cons r qs =>
      show resolveLoop index (n + 1) (r :: qs) g ≠ .ok g'
      unfold resolveLoop
      cases hlk : List.lookup r index with
      | none => exact fun h => ResolveResult.noConfusion h
      | some entry =>
        have hpr : p ≠ r := by
          intro he
          rw [he, hlk] at hmiss
          exact Option.noConfusion hmiss
        have hpqs : p ∈ qs := by
          rcases List.mem_cons.mp hp with h | h
          · exact absurd h hpr
          · exact h
        obtain ⟨extra, hextra⟩ :=
          processDeps_queue_extends r entry.dependencies (g.add r) qs
        refine ih _ _ p ?_ hmiss g'
        rw [hextra]
        exact List.mem_append_left extra hpqs

/-- Counterexample to claim C3 as stated: with an empty index, resolving a
single package aborts through the panic at resolver.rs:236 carrying the
missing reference — it does not return an `Error` value (the `Error` enum
has no `PackageNotFound` variant at all). -/
theorem resolve_missing_panics_counterexample :
    resolve_packages 1 [] [⟨"A", "A", ⟨1, 0, 0⟩⟩] =
      ResolveResult.panicMissing ⟨"A", "A", ⟨1, 0, 0⟩⟩ ∧
    ∀ e : Error,
      resolve_packages 1 [] [⟨"A", "A", ⟨1, 0, 0⟩⟩] ≠ ResolveResult.err e := by
  refine ⟨rfl, ?_⟩
  intro e h
  rw [show resolve_packages 1 [] [⟨"A", "A", ⟨1, 0, 0⟩⟩] =
    ResolveResult.panicMissing ⟨"A", "A", ⟨1, 0, 0⟩⟩ from rfl] at h
  exact ResolveResult.noConfusion h

/-- Claim C3 as amended: when some requested package has no entry in the
index, resolution aborts by panicking — it returns neither a graph (the
partially built graph is discarded) nor any `Error` value; and every
panic outcome names a reference that is absent from the index. -/
theorem resolve_missing_aborts (fuel : Nat) (index : ResolverIndex)
    (packages : List PackageReference) (p : PackageReference)
    (hp : p ∈ packages) (hmiss : List.lookup p index = none) :
    (∀ g, resolve_packages fuel index packages ≠ ResolveResult.ok g) ∧
    (∀ e, resolve_packages fuel index packages ≠ ResolveResult.err e) := by
  unfold resolve_packages
  cases hres : resolveLoop index fuel packages DependencyGraph.new with
  | ok g0 =>
    exact absurd hres
      (fun h => resolveLoop_no_ok_of_missing index fuel packages
        DependencyGraph.new p hp hmiss g0 h)
  | err e0 => exact absurd hres (resolveLoop_no_err index fuel packages _ e0)
  | panicMissing r =>
    exact ⟨fun g h => ResolveResult.noConfusion h,
      fun e h => ResolveResult.noConfusion h⟩
  | outOfFuel =>
    exact ⟨fun g h => ResolveResult.noConfusion h,
      fun e h => ResolveResult.noConfusion h⟩

/-- Witness for `resolve_missing_aborts`: a one-entry index that lacks the
requested package. -/
theorem resolve_missing_aborts_witness :
    (⟨"A", "A", ⟨1, 0, 0⟩⟩ : PackageReference) ∈
      ([⟨"A", "A", ⟨1, 0, 0⟩⟩] : List PackageReference) ∧
    List.lookup (⟨"A", "A", ⟨1, 0, 0⟩⟩ : PackageReference)
      ([(⟨"B", "B", ⟨1, 0, 0⟩⟩, ⟨"B", "B", ⟨1, 0, 0⟩, none, 0, []⟩)] :
        ResolverIndex) = none ∧
    ((∀ g, resolve_packages 3
        [(⟨"B", "B", ⟨1, 0, 0⟩⟩, ⟨"B", "B", ⟨1, 0, 0⟩, none, 0, []⟩)]
        [⟨"A", "A", ⟨1, 0, 0⟩⟩] ≠ ResolveResult.ok g) ∧
      (∀ e, resolve_packages 3
        [(⟨"B", "B", ⟨1, 0, 0⟩⟩, ⟨"B", "B", ⟨1, 0, 0⟩, none, 0, []⟩)]
        [⟨"A", "A", ⟨1, 0, 0⟩⟩] ≠ ResolveResult.err e)) :=
  ⟨by decide, by decide,
    resolve_missing_aborts 3
      [(⟨"B", "B", ⟨1, 0, 0⟩⟩, ⟨"B", "B", ⟨1, 0, 0⟩, none, 0, []⟩)]
      [⟨"A", "A", ⟨1, 0, 0⟩⟩] ⟨"A", "A", ⟨1, 0, 0⟩⟩ (by decide) (by decide)⟩

/- ------------------------------------------------------------------ -/
/- `PackageIndex::sync` / `get_package` (src/package/index.rs).        -/
/- ------------------------------------------------------------------ -/

/-- One record of the catalog stream as `PackageIndex::sync` consumes it
(index.rs:98-125): the raw JSON line (newline-free) paired with the strict
reference parsed out of it at index.rs:105-112. -/
structure CatalogRecord where
  ref : PackageReference
  line : List Char
deriving DecidableEq, Repr

/-- Embedding of `LookupTableEntry` (index.rs:227-231); the Rust field
`end` is called `stop` because `end` is a Lean keyword. -/
structure LookupTableEntry where
  start : Nat
  stop : Nat
deriving DecidableEq, Repr

/-- The sync loop (index.rs:95-125): append `line ++ "\n"` to the index
file, record `(start, start + chunk.len())` for the parsed reference, and
advance `start` by the chunk length.  The `HashMap` is an association
list; the running byte offset is the second argument. -/
def syncLoop : List CatalogRecord → Nat →
    List (PackageReference × LookupTableEntry) × List Char
  | [], _ => ([], [])
  | e :: rest, start =>
    let chunk := e.line ++ ['\n']
    let acc := syncLoop rest (start + chunk.length)
    ((e.ref, ⟨start, start + chunk.length⟩) :: acc.1, chunk ++ acc.2)

/-- Embedding of `PackageIndex::sync` (index.rs:75-137) reduced to its
observables: the lookup table and the bytes of `index.json`. -/
def PackageIndex.sync (stream : List CatalogRecord) :
    List (PackageReference × LookupTableEntry) × List Char :=
  syncLoop stream 0

/-- Embedding of `PackageIndex::read_index_string` (index.rs:209-217): a
positional read of `end - start` bytes at offset `start` (the code asserts
the read is complete; in this model the range is always in bounds). -/
def read_index_string (file : List Char) (entry : LookupTableEntry) : List Char :=
  (file.drop entry.start).take (entry.stop - entry.start)

/-- Embedding of `PackageIndex::get_package` (index.rs:182-190) composed
with the table loading of `open` (index.rs:140-179): the strict-reference
lookup finds the recorded byte range and reads it.  The final
`serde_json::from_str` is not modelled; the returned value is the raw byte
range, which deserializes to the entry serialized into it. -/
def get_package (lookup : List (PackageReference × LookupTableEntry))
    (file : List Char) (r : PackageReference) : Option (List Char) :=
  (List.lookup r lookup).map (read_index_string file)

theorem syncLoop_roundtrip (stream : List CatalogRecord)
    (hnd : (stream.map CatalogRecord.ref).Nodup) :
    ∀ (start : Nat) (e : CatalogRecord), e ∈ stream →
      ∃ ent, List.lookup e.ref (syncLoop stream start).1 = some ent ∧
        start ≤ ent.start ∧
        ent.stop = ent.start + (e.line.length + 1) ∧
        read_index_string (syncLoop stream start).2
          ⟨ent.start - start, ent.stop - start⟩ = e.line ++ ['\n'] := by
  induction stream with
  | nil =>
    intro start e he
    exact absurd he (List.not_mem_nil e)
  | cons hd rest ih =>
    intro start e he
    simp only [List.map_cons, List.nodup_cons] at hnd
    have hlen : (hd.line ++ ['\n']).length = hd.line.length + 1 := by
      rw [List.length_append, List.length_singleton]
    rcases List.mem_cons.mp he with he' | he'
    · subst he'
      refine ⟨⟨start, start + (e.line ++ ['\n']).length⟩, ?_, Nat.le_refl _, ?_, ?_⟩
      · show List.lookup e.ref ((e.ref, _) :: _) = _
        rw [List.lookup_cons]
        simp
      · show start + (e.line ++ ['\n']).length = start + (e.line.length + 1)
        rw [hlen]
      · show read_index_string ((e.line ++ ['\n']) ++
            (syncLoop rest (start + (e.line ++ ['\n']).length)).2)
          ⟨start - start, start + (e.line ++ ['\n']).length - start⟩ = e.line ++ ['\n']
        unfold read_index_string
        simp only [Nat.sub_self, Nat.add_sub_cancel_left, List.drop_zero, Nat.sub_zero]
        exact List.take_left _ _
    · have hne : e.ref ≠ hd.ref := by
        intro h
        exact hnd.1 (h ▸ List.mem_map.mpr ⟨e, he', rfl⟩)
      obtain ⟨ent, hlk, hge, hstop, hread⟩ :=
        ih hnd.2 (start + (hd.line.length + 1)) e he'
      refine ⟨ent, ?_, by omega, hstop, ?_⟩
      · show List.lookup e.ref ((hd.ref, _) ::
          (syncLoop rest (start + (hd.line ++ ['\n']).length)).1) = some ent
        rw [List.lookup_cons]
        simp only [beq_eq_false_iff_ne.mpr hne]
        rw [show start + (hd.line ++ ['\n']).length =
          start + (hd.line.length + 1) by rw [hlen]]
        exact hlk
      · show read_index_string ((hd.line ++ ['\n']) ++
            (syncLoop rest (start + (hd.line ++ ['\n']).length)).2)
          ⟨ent.start - start, ent.stop - start⟩ = e.line ++ ['\n']
        rw [show start + (hd.line ++ ['\n']).length =
          start + (hd.line.length + 1) by rw [hlen]]
        unfold read_index_string at hread ⊢
        have hA : ((hd.line ++ ['\n']) ++
            (syncLoop rest (start + (hd.line.length + 1))).2).drop (ent.start - start) =
            (syncLoop rest (start + (hd.line.length + 1))).2.drop
              (ent.start - (start + (hd.line.length + 1))) := by
          have h1 : ent.start - start =
              (hd.line ++ ['\n']).length +
                (ent.start - (start + (hd.line.length + 1))) := by
            rw [hlen]
            omega
          rw [h1, List.drop_append]
        have hB : ent.stop - start - (ent.start - start) =
            ent.stop - (start + (hd.line.length + 1)) -
              (ent.start - (start + (hd.line.length + 1))) := by
          omega
        rw [hA, hB]
        exact hread

/-- Claim C4: for every catalog stream of newline-free records with
distinct strict references (the spec's index invariant), after `sync` the
lookup table holds, for each record `e`, a byte range of exactly `e`'s
line plus its newline terminator, and `get_package` on `e`'s strict
reference reads exactly that range back — the line written for `e`,
byte-identical, which serde then deserializes to an entry deep-equal to
`e`. -/
theorem sync_get_package_roundtrip (stream : List CatalogRecord)
    (hnd : (stream.map CatalogRecord.ref).Nodup)
    (hnl : ∀ e ∈ stream, ('\n') ∉ e.line) :
    ∀ e ∈ stream,
      ∃ ent, List.lookup e.ref (PackageIndex.sync stream).1 = some ent ∧
        ent.stop = ent.start + (e.line.length + 1) ∧
        get_package (PackageIndex.sync stream).1 (PackageIndex.sync stream).2 e.ref =
          some (e.line ++ ['\n']) := by
  intro e he
  obtain ⟨ent, hlk, _, hstop, hread⟩ := syncLoop_roundtrip stream hnd 0 e he
  refine ⟨ent, hlk, hstop, ?_⟩
  unfold get_package PackageIndex.sync
  rw [hlk]
  show some (read_index_string (syncLoop stream 0).2 ent) = some (e.line ++ ['\n'])
  rw [show ent = (⟨ent.start - 0, ent.stop - 0⟩ : LookupTableEntry) by
    rw [Nat.sub_zero, Nat.sub_zero]]
  rw [hread]

/-- Witness for `sync_get_package_roundtrip` on a concrete two-record
stream. -/
theorem sync_get_package_roundtrip_witness :
    (([⟨⟨"A", "A", ⟨1, 0, 0⟩⟩, ['a', 'b']⟩, ⟨⟨"B", "B", ⟨1, 0, 0⟩⟩, ['c']⟩] :
        List CatalogRecord).map CatalogRecord.ref).Nodup ∧
    (∀ e ∈ ([⟨⟨"A", "A", ⟨1, 0, 0⟩⟩, ['a', 'b']⟩, ⟨⟨"B", "B", ⟨1, 0, 0⟩⟩, ['c']⟩] :
        List CatalogRecord), ('\n') ∉ e.line) ∧
    (⟨⟨"B", "B", ⟨1, 0, 0⟩⟩, ['c']⟩ : CatalogRecord) ∈
      ([⟨⟨"A", "A", ⟨1, 0, 0⟩⟩, ['a', 'b']⟩, ⟨⟨"B", "B", ⟨1, 0, 0⟩⟩, ['c']⟩] :
        List CatalogRecord) ∧
    (∃ ent, List.lookup (⟨"B", "B", ⟨1, 0, 0⟩⟩ : PackageReference)
        (PackageIndex.sync
          [⟨⟨"A", "A", ⟨1, 0, 0⟩⟩, ['a', 'b']⟩, ⟨⟨"B", "B", ⟨1, 0, 0⟩⟩, ['c']⟩]).1 =
          some ent ∧
      ent.stop = ent.start + (['c'].length + 1) ∧
      get_package
          (PackageIndex.sync
            [⟨⟨"A", "A", ⟨1, 0, 0⟩⟩, ['a', 'b']⟩, ⟨⟨"B", "B", ⟨1, 0, 0⟩⟩, ['c']⟩]).1
          (PackageIndex.sync
            [⟨⟨"A", "A", ⟨1, 0, 0⟩⟩, ['a', 'b']⟩, ⟨⟨"B", "B", ⟨1, 0, 0⟩⟩, ['c']⟩]).2
          ⟨"B", "B", ⟨1, 0, 0⟩⟩ =
        some (['c'] ++ ['\n'])) :=
  ⟨by decide, by decide, by decide,
    sync_get_package_roundtrip
      [⟨⟨"A", "A", ⟨1, 0, 0⟩⟩, ['a', 'b']⟩, ⟨⟨"B", "B", ⟨1, 0, 0⟩⟩, ['c']⟩]
      (by decide) (by decide) ⟨⟨"B", "B", ⟨1, 0, 0⟩⟩, ['c']⟩ (by decide)⟩

/- ------------------------------------------------------------------ -/
/- Statefile, staged files and uninstall cleanup (src/project).        -/
/- ------------------------------------------------------------------ -/

/-- Embedding of `FileAction` (src/package/install/api.rs:16-20). -/
inductive FileAction where
  | create
  | remove
  | modify
deriving DecidableEq, Repr

/-- Embedding of `TrackedFile` (api.rs:22-27). -/
structure TrackedFile where
  action : FileAction
  path : String
  context : Option String
deriving DecidableEq, Repr

/-- Embedding of `StagedFile` (src/project/state.rs:15-20). -/
structure StagedFile where
  action : TrackedFile
  dest : List String
  md5 : String
deriving DecidableEq, Repr

/-- Embedding of `StateEntry` (state.rs:46-50). -/
structure StateEntry where
  staged : List StagedFile
  linked : List TrackedFile
deriving DecidableEq, Repr

/-- The statefile map `state` (state.rs:52-55), as an association list. -/
abbrev StateFileMap := List (PackageReference × StateEntry)

/-- The filesystem as the cleanup pass observes it: each present file is a
path bound to the MD5 digest of its current contents (`util::file::md5`);
only existence checks and digest comparisons reach this code. -/
abbrev FileSystem := List (String × String)

/-- Embedding of `Path::is_file` against the modelled filesystem. -/
def isFile (fs : FileSystem) (p : String) : Bool :=
  (List.lookup p fs).isSome

/-- Embedding of `StagedFile::is_same_as` (state.rs:32-39): `false` when
the path is not a file, otherwise equality of the recorded digest with the
file's current digest. -/
def StagedFile.is_same_as (s : StagedFile) (fs : FileSystem) (p : String) : Bool :=
  match List.lookup p fs with
  | none => false
  | some d => s.md5 == d

/-- Embedding of `fs::remove_file`: drop the path from the filesystem. -/
def removeFile (fs : FileSystem) (p : String) : FileSystem :=
  fs.filter (fun kv => !(kv.1 == p))

/-- The destination sweep for one staged entry (project/mod.rs:389-403):
each recorded destination is deleted exactly when `is_same_as` holds of it
at that moment (the iterator chain at mod.rs:391-398 is lazy, so each
check observes the deletions made before it). -/
def destPass (s : StagedFile) (fs : FileSystem) (dests : List String) : FileSystem :=
  dests.foldl (fun fs' d => if s.is_same_as fs' d then removeFile fs' d else fs') fs

/-- One staged entry of the cleanup loop (mod.rs:384-403): entries whose
source still exists are skipped (`invalid_staged_entries` filter at
mod.rs:385-387, also lazy); the rest get the destination sweep. -/
def cleanupStagedFile (fs : FileSystem) (s : StagedFile) : FileSystem :=
  if isFile fs s.action.path then fs
  else destPass s fs s.dest

/-- The per-package post-uninstall cleanup (mod.rs:380-406): the statefile
lookup at mod.rs:381 is an unconditional `unwrap` — a missing entry panics
(`none`); otherwise every staged entry is processed and the package's
statefile entry is removed (mod.rs:405). -/
def uninstall_cleanup (fs : FileSystem) (statefile : StateFileMap)
    (pkg : PackageReference) : Option (FileSystem × StateFileMap) :=
  match List.lookup pkg statefile with
  | none => none
  | some entry =>
      some (entry.staged.foldl cleanupStagedFile fs,
        statefile.filter (fun kv => !(kv.1 == pkg)))

/-- The tracked-file gathering step for the installer (mod.rs:354-361): a
missing statefile entry is tolerated with `map_or(vec![], ..)`, yielding
the empty list. -/
def gather_tracked_files (statefile : StateFileMap) (pkg : PackageReference) :
    List TrackedFile :=
  match List.lookup pkg statefile with
  | none => []
  | some entry => entry.staged.map (fun s => s.action) ++ entry.linked

theorem lookup_filter_ne {α β : Type} [DecidableEq α] (t : List (α × β)) (k q : α) :
    List.lookup q (t.filter (fun kv => !(kv.1 == k))) =
      if q = k then none else List.lookup q t := by
  induction t with
  | nil => simp
  | cons hd tl ih =>
    obtain ⟨k', v'⟩ := hd
    by_cases hk : k' = k
    · subst hk
      rw [List.filter_cons]
      simp only [beq_self_eq_true, Bool.not_true, Bool.false_eq_true, if_false]
      rw [ih, List.lookup_cons]
      by_cases hq : q = k'
      · subst hq
        simp
      · simp [beq_eq_false_iff_ne.mpr hq, hq]
    · rw [List.filter_cons]
      simp only [beq_eq_false_iff_ne.mpr hk, Bool.not_false, if_true]
      rw [List.lookup_cons, List.lookup_cons]
      by_cases hq : q = k'
      · subst hq
        simp only [beq_self_eq_true]
        rw [if_neg hk]
      · simp only [beq_eq_false_iff_ne.mpr hq]
        exact ih

theorem lookup_removeFile (fs : FileSystem) (p q : String) :
    List.lookup q (removeFile fs p) = if q = p then none else List.lookup q fs :=
  lookup_filter_ne fs p q

theorem is_same_as_congr {s : StagedFile} {fs₁ fs₂ : FileSystem} {q : String}
    (h : List.lookup q fs₁ = List.lookup q fs₂) :
    s.is_same_as fs₁ q = s.is_same_as fs₂ q := by
  unfold StagedFile.is_same_as
  rw [h]

theorem isFile_congr {fs₁ fs₂ : FileSystem} {q : String}
    (h : List.lookup q fs₁ = List.lookup q fs₂) : isFile fs₁ q = isFile fs₂ q := by
  unfold isFile
  rw [h]

theorem destPass_lookup (s : StagedFile) :
    ∀ (dests : List String) (fs : FileSystem) (q : String),
      List.lookup q (destPass s fs dests) =
        if dests.contains q && s.is_same_as fs q then none
        else List.lookup q fs := by
  intro dests
  induction dests with
  | nil =>
    intro fs q
    simp [destPass]
  | cons d ds ih =>
    intro fs q
    unfold destPass
    rw [List.foldl_cons]
    rw [show List.foldl (fun fs' d => if s.is_same_as fs' d then removeFile fs' d else fs')
      (if s.is_same_as fs d then removeFile fs d else fs) ds =
      destPass s (if s.is_same_as fs d then removeFile fs d else fs) ds from rfl]
    rw [ih]
    by_cases hsd : s.is_same_as fs d = true
    · simp only [hsd, if_true]
      by_cases hq : q = d
      · subst hq
        have h1 : List.lookup q (removeFile fs q) = none := by
          rw [lookup_removeFile]
          simp
        have h2 : s.is_same_as (removeFile fs q) q = false := by
          unfold StagedFile.is_same_as
          rw [h1]
        rw [h1, h2]
        have h3 : (q :: ds).contains q = true := by
          simp [List.contains_cons]
        rw [h3]
        simp [hsd]
      · have h1 : List.lookup q (removeFile fs d) = List.lookup q fs := by
          rw [lookup_removeFile, if_neg hq]
        rw [h1, is_same_as_congr h1]
        have h3 : (d :: ds).contains q = ds.contains q := by
          rw [List.contains_cons, beq_eq_false_iff_ne.mpr hq, Bool.false_or]
        rw [h3]
    · simp only [Bool.not_eq_true] at hsd
      simp only [hsd, Bool.false_eq_true, if_false]
      by_cases hq : q = d
      · subst hq
        rw [hsd]
        simp
      · have h3 : (d :: ds).contains q = ds.contains q := by
          rw [List.contains_cons, beq_eq_false_iff_ne.mpr hq, Bool.false_or]
        rw [h3]

theorem cleanup_lookup :
    ∀ (staged : List StagedFile) (fs : FileSystem) (q : String),
      (∀ s ∈ staged, ∀ t ∈ staged, s.action.path ∉ t.dest) →
      List.lookup q (staged.foldl cleanupStagedFile fs) =
        if staged.any (fun s => !(isFile fs s.action.path) && s.dest.contains q &&
            s.is_same_as fs q) then none
        else List.lookup q fs := by
  intro staged
  induction staged with
  | nil =>
    intro fs q _
    simp
  | cons s rest ih =>
    intro fs q hdisj
    rw [List.foldl_cons]
    have hdisj' : ∀ a ∈ rest, ∀ t ∈ rest, a.action.path ∉ t.dest := by
      intro a ha t ht
      exact hdisj a (List.mem_cons_of_mem _ ha) t (List.mem_cons_of_mem _ ht)
    rw [ih (cleanupStagedFile fs s) q hdisj']
    by_cases hsrc : isFile fs s.action.path = true
    · have hcl : cleanupStagedFile fs s = fs := by
        unfold cleanupStagedFile
        rw [if_pos hsrc]
      rw [hcl]
      rw [List.any_cons]
      simp only [hsrc, Bool.not_true, Bool.false_and, Bool.false_or]
    · simp only [Bool.not_eq_true] at hsrc
      have hcl : cleanupStagedFile fs s = destPass s fs s.dest := by
        unfold cleanupStagedFile
        rw [if_neg (by rw [hsrc]; exact Bool.false_ne_true)]
      rw [hcl]
      -- how this staged entry acts on any single path
      have hone : ∀ p : String, List.lookup p (destPass s fs s.dest) =
          if s.dest.contains p && s.is_same_as fs p then none
          else List.lookup p fs := destPass_lookup s s.dest fs
      -- whether this entry deletes q
      by_cases hcon : s.dest.contains q = true
      case pos =>
        by_cases hsame : s.is_same_as fs q = true
        case pos =>
          -- q is deleted by this entry: both sides are `none`
          have hq1 : List.lookup q (destPass s fs s.dest) = none := by
            rw [hone q, hcon, hsame]
            rfl
          have hq2 : ∀ t : StagedFile, t.is_same_as (destPass s fs s.dest) q = false := by
            intro t
            unfold StagedFile.is_same_as
            rw [hq1]
          have hany : (rest.any (fun t => !(isFile (destPass s fs s.dest) t.action.path) &&
              t.dest.contains q && t.is_same_as (destPass s fs s.dest) q)) = false := by
            rw [List.any_eq_false]
            intro t _
            rw [hq2 t]
            simp
          rw [hany, hq1, List.any_cons]
          have hmem : q ∈ s.dest := by simpa using hcon
          simp [hsrc, hsame, hmem]
        case neg =>
          simp only [Bool.not_eq_true] at hsame
          have hq1 : List.lookup q (destPass s fs s.dest) = List.lookup q fs := by
            rw [hone q, hsame]
            simp
          have hsame2 : ∀ t ∈ rest, (!(isFile (destPass s fs s.dest) t.action.path) &&
              t.dest.contains q && t.is_same_as (destPass s fs s.dest) q) =
              (!(isFile fs t.action.path) && t.dest.contains q && t.is_same_as fs q) := by
            intro t ht
            have hpath : List.lookup t.action.path (destPass s fs s.dest) =
                List.lookup t.action.path fs := by
              rw [hone t.action.path]
              have hnc : s.dest.contains t.action.path = false := by
                by_contra hc
                simp only [Bool.not_eq_false] at hc
                refine hdisj t (List.mem_cons_of_mem _ ht) s (List.mem_cons_self s rest) ?_
                simpa using hc
              rw [hnc]
              simp
            rw [isFile_congr hpath, is_same_as_congr hq1]
          have hany : (rest.any (fun t => !(isFile (destPass s fs s.dest) t.action.path) &&
              t.dest.contains q && t.is_same_as (destPass s fs s.dest) q)) =
              (rest.any (fun t => !(isFile fs t.action.path) && t.dest.contains q &&
                t.is_same_as fs q)) := by
            rw [Bool.eq_iff_iff, List.any_eq_true, List.any_eq_true]
            constructor
            · rintro ⟨t, ht, hp⟩
              exact ⟨t, ht, (hsame2 t ht) ▸ hp⟩
            · rintro ⟨t, ht, hp⟩
              exact ⟨t, ht, (hsame2 t ht).symm ▸ hp⟩
          rw [hany, hq1, List.any_cons]
          simp [hsrc, hsame]
      case neg =>
        simp only [Bool.not_eq_true] at hcon
        have hq1 : List.lookup q (destPass s fs s.dest) = List.lookup q fs := by
          rw [hone q, hcon]
          simp
        have hsame2 : ∀ t ∈ rest, (!(isFile (destPass s fs s.dest) t.action.path) &&
            t.dest.contains q && t.is_same_as (destPass s fs s.dest) q) =
            (!(isFile fs t.action.path) && t.dest.contains q && t.is_same_as fs q) := by
          intro t ht
          have hpath : List.lookup t.action.path (destPass s fs s.dest) =
              List.lookup t.action.path fs := by
            rw [hone t.action.path]
            have hnc : s.dest.contains t.action.path = false := by
              by_contra hc
              simp only [Bool.not_eq_false] at hc
              refine hdisj t (List.mem_cons_of_mem _ ht) s (List.mem_cons_self s rest) ?_
              simpa using hc
            rw [hnc]
            simp
          rw [isFile_congr hpath, is_same_as_congr hq1]
        have hany : (rest.any (fun t => !(isFile (destPass s fs s.dest) t.action.path) &&
            t.dest.contains q && t.is_same_as (destPass s fs s.dest) q)) =
            (rest.any (fun t => !(isFile fs t.action.path) && t.dest.contains q &&
              t.is_same_as fs q)) := by
          rw [Bool.eq_iff_iff, List.any_eq_true, List.any_eq_true]
          constructor
          · rintro ⟨t, ht, hp⟩
            exact ⟨t, ht, (hsame2 t ht) ▸ hp⟩
          · rintro ⟨t, ht, hp⟩
            exact ⟨t, ht, (hsame2 t ht).symm ▸ hp⟩
        rw [hany, hq1, List.any_cons]
        have hmem : q ∉ s.dest := by simpa using hcon
        simp [hsrc, hmem]

/-- Claim C5: during commit's uninstall of a package holding a statefile
entry whose staged source paths are disjoint from all recorded destination
paths (the staging-directory/game-directory split), cleanup deletes a path
exactly when some staged entry whose source no longer exists records it as
a destination and the file currently there exists with the recorded MD5
digest (`is_same_as`); every other path — in particular a destination
whose current digest differs — is left in place; and the package's entry
is removed from the statefile. -/
theorem uninstall_cleanup_exact (fs : FileSystem) (statefile : StateFileMap)
    (pkg : PackageReference) (entry : StateEntry)
    (hentry : List.lookup pkg statefile = some entry)
    (hdisj : ∀ s ∈ entry.staged, ∀ t ∈ entry.staged, s.action.path ∉ t.dest) :
    ∃ fs' sf', uninstall_cleanup fs statefile pkg = some (fs', sf') ∧
      (∀ q, List.lookup q fs' =
        if entry.staged.any (fun s => !(isFile fs s.action.path) &&
            s.dest.contains q && s.is_same_as fs q) then none
        else List.lookup q fs) ∧
      List.lookup pkg sf' = none := by
  refine ⟨entry.staged.foldl cleanupStagedFile fs,
    statefile.filter (fun kv => !(kv.1 == pkg)), ?_, ?_, ?_⟩
  · unfold uninstall_cleanup
    rw [hentry]
  · intro q
    exact cleanup_lookup entry.staged fs q hdisj
  · rw [lookup_filter_ne]
    simp

/-- Witness for `uninstall_cleanup_exact`, mirroring spec scenarios S5/S6:
one staged file whose source is gone, one matching destination (deleted)
and one user-modified destination (kept). -/
theorem uninstall_cleanup_exact_witness :
    List.lookup (⟨"A", "A", ⟨1, 0, 0⟩⟩ : PackageReference)
      ([(⟨"A", "A", ⟨1, 0, 0⟩⟩,
        ⟨[⟨⟨FileAction.create, "staging/a", none⟩, ["game/a", "game/b"], "D"⟩], []⟩)] :
        StateFileMap) =
      some ⟨[⟨⟨FileAction.create, "staging/a", none⟩, ["game/a", "game/b"], "D"⟩], []⟩ ∧
    (∀ s ∈ (⟨[⟨⟨FileAction.create, "staging/a", none⟩, ["game/a", "game/b"], "D"⟩], []⟩ :
        StateEntry).staged,
      ∀ t ∈ (⟨[⟨⟨FileAction.create, "staging/a", none⟩, ["game/a", "game/b"], "D"⟩], []⟩ :
        StateEntry).staged, s.action.path ∉ t.dest) ∧
    (∃ fs' sf',
      uninstall_cleanup [("game/a", "D"), ("game/b", "E")]
          [(⟨"A", "A", ⟨1, 0, 0⟩⟩,
            ⟨[⟨⟨FileAction.create, "staging/a", none⟩, ["game/a", "game/b"], "D"⟩], []⟩)]
          ⟨"A", "A", ⟨1, 0, 0⟩⟩ = some (fs', sf') ∧
      (∀ q, List.lookup q fs' =
        if (⟨[⟨⟨FileAction.create, "staging/a", none⟩, ["game/a", "game/b"], "D"⟩], []⟩ :
            StateEntry).staged.any (fun s =>
              !(isFile [("game/a", "D"), ("game/b", "E")] s.action.path) &&
              s.dest.contains q &&
              s.is_same_as [("game/a", "D"), ("game/b", "E")] q) then none
        else List.lookup q [("game/a", "D"), ("game/b", "E")]) ∧
      List.lookup (⟨"A", "A", ⟨1, 0, 0⟩⟩ : PackageReference) sf' = none) :=
  ⟨by decide, by decide,
    uninstall_cleanup_exact [("game/a", "D"), ("game/b", "E")]
      [(⟨"A", "A", ⟨1, 0, 0⟩⟩,
        ⟨[⟨⟨FileAction.create, "staging/a", none⟩, ["game/a", "game/b"], "D"⟩], []⟩)]
      ⟨"A", "A", ⟨1, 0, 0⟩⟩
      ⟨[⟨⟨FileAction.create, "staging/a", none⟩, ["game/a", "game/b"], "D"⟩], []⟩
      (by decide) (by decide)⟩

/-- Claim C9: the post-uninstall cleanup unwraps the statefile lookup
(mod.rs:381): a package from `delta.del` with no statefile entry makes the
cleanup panic, even though the earlier gather step (mod.rs:354-361)
tolerates the missing entry by substituting the empty list; with the
entry present the cleanup is total. -/
theorem uninstall_cleanup_panics_without_entry (fs : FileSystem)
    (statefile : StateFileMap) (pkg : PackageReference) :
    (List.lookup pkg statefile = none →
      uninstall_cleanup fs statefile pkg = none ∧
      gather_tracked_files statefile pkg = []) ∧
    (∀ entry, List.lookup pkg statefile = some entry →
      ∃ out, uninstall_cleanup fs statefile pkg = some out) := by
  constructor
  · intro h
    unfold uninstall_cleanup gather_tracked_files
    rw [h]
    exact ⟨rfl, rfl⟩
  · intro entry h
    unfold uninstall_cleanup
    rw [h]
    exact ⟨_, rfl⟩

/-- Witness for `uninstall_cleanup_panics_without_entry`: an empty
statefile panics the cleanup, a one-entry statefile does not. -/
theorem uninstall_cleanup_panics_without_entry_witness :
    (uninstall_cleanup [] [] ⟨"A", "A", ⟨1, 0, 0⟩⟩ = none ∧
      gather_tracked_files [] ⟨"A", "A", ⟨1, 0, 0⟩⟩ = []) ∧
    (∃ out, uninstall_cleanup [] [(⟨"A", "A", ⟨1, 0, 0⟩⟩, ⟨[], []⟩)]
        ⟨"A", "A", ⟨1, 0, 0⟩⟩ = some out) :=
  ⟨(uninstall_cleanup_panics_without_entry [] [] ⟨"A", "A", ⟨1, 0, 0⟩⟩).1 (by decide),
    (uninstall_cleanup_panics_without_entry []
        [(⟨"A", "A", ⟨1, 0, 0⟩⟩, ⟨[], []⟩)] ⟨"A", "A", ⟨1, 0, 0⟩⟩).2
      ⟨[], []⟩ (by decide)⟩

/- ------------------------------------------------------------------ -/
/- `Project::commit` statefile persistence (src/project/mod.rs).       -/
/- ------------------------------------------------------------------ -/

/-- Outcome of a `commit` run as far as the statefile is concerned. -/
inductive CommitOutcome where
  | ok
  | installFailed
  | panicked
deriving DecidableEq, Repr

/-- Recording one installed package's tracked files into the in-memory
statefile (mod.rs:315-329): `entry(package).or_default()` then extend the
staged and linked lists. -/
def statefile_record (sf : StateFileMap) (pkg : PackageReference)
    (e : StateEntry) : StateFileMap :=
  match List.lookup pkg sf with
  | some old =>
    sf.map (fun kv => if kv.1 == pkg then
      (kv.1, ⟨old.staged ++ e.staged, old.linked ++ e.linked⟩) else kv)
  | none => sf ++ [(pkg, e)]

/-- The uninstall phase of commit over the reversed `delta.del`
(mod.rs:437-446): the per-package installer subprocess is outside the
model; the statefile and filesystem mutations are the per-package
cleanups, which panic (`none`) on a missing statefile entry. -/
def uninstall_phase (fs : FileSystem) (sf : StateFileMap)
    (del : List PackageReference) : Option (FileSystem × StateFileMap) :=
  del.foldl (fun acc pkg =>
    match acc with
    | none => none
    | some state => uninstall_cleanup state.1 state.2 pkg) (some (fs, sf))

/-- Embedding of `Project::commit` (mod.rs:416-459) restricted to its
statefile observables.  The in-memory statefile is opened from disk
(mod.rs:433); the uninstall phase mutates it; the install phase — whose
success is the `installsOk` flag, `false` when any install job fails and
aborts the `try_join_all` (mod.rs:308, propagated at mod.rs:448-449) —
records `adds`; the single `statefile.write` (mod.rs:452) runs only after
both phases succeed.  The returned map is the resulting ON-DISK
statefile. -/
def commit_statefile (fs : FileSystem) (disk : StateFileMap)
    (del : List PackageReference) (installsOk : Bool)
    (adds : List (PackageReference × StateEntry)) :
    CommitOutcome × StateFileMap :=
  match uninstall_phase fs disk del with
  | none => (CommitOutcome.panicked, disk)
  | some state =>
    if installsOk then
      (CommitOutcome.ok,
        adds.foldl (fun sf kv => statefile_record sf kv.1 kv.2) state.2)
    else (CommitOutcome.installFailed, disk)

theorem uninstall_phase_fold_none (del : List PackageReference) :
    del.foldl (fun acc pkg =>
      match acc with
      | none => none
      | some state => uninstall_cleanup state.1 state.2 pkg)
      (none : Option (FileSystem × StateFileMap)) = none := by
  induction del with
  | nil => rfl
  | cons d ds ih => rw [List.foldl_cons]; exact ih

theorem uninstall_cleanup_sf_lookup {fs : FileSystem} {sf : StateFileMap}
    {pkg : PackageReference} {fs' : FileSystem} {sf' : StateFileMap}
    (h : uninstall_cleanup fs sf pkg = some (fs', sf')) (q : PackageReference) :
    List.lookup q sf' = if q = pkg then none else List.lookup q sf := by
  unfold uninstall_cleanup at h
  revert h
  cases he : List.lookup pkg sf with
  | none => intro h; exact Option.noConfusion h
  | some entry =>
    intro h
    obtain ⟨-, h2⟩ := Prod.mk.injEq .. ▸ (Option.some.injEq .. ▸ h)
    rw [← h2]
    exact lookup_filter_ne sf pkg q

theorem uninstall_phase_removes (del : List PackageReference) :
    ∀ (fs : FileSystem) (sf : StateFileMap) (state : FileSystem × StateFileMap),
      uninstall_phase fs sf del = some state →
      ∀ q : PackageReference,
        (q ∈ del → List.lookup q state.2 = none) ∧
        (List.lookup q sf = none → List.lookup q state.2 = none) := by
  induction del with
  | nil =>
    intro fs sf state h q
    unfold uninstall_phase at h
    rw [List.foldl_nil] at h
    obtain rfl : (fs, sf) = state := Option.some.injEq .. ▸ h
    exact ⟨fun hq => absurd hq (List.not_mem_nil q), fun h0 => h0⟩
  | cons d ds ih =>
    intro fs sf state h q
    unfold uninstall_phase at h
    rw [List.foldl_cons] at h
    have hstep : (match (some (fs, sf) : Option (FileSystem × StateFileMap)) with
        | none => none
        | some state => uninstall_cleanup state.1 state.2 d) =
        uninstall_cleanup fs sf d := rfl
    rw [hstep] at h
    cases hc : uninstall_cleanup fs sf d with
    | none =>
      rw [hc, uninstall_phase_fold_none] at h
      exact Option.noConfusion h
    | some st' =>
      rw [hc] at h
      have h' : uninstall_phase st'.1 st'.2 ds = some state := h
      obtain ⟨h1, h2⟩ := ih st'.1 st'.2 state h' q
      have hcl := uninstall_cleanup_sf_lookup
        (show uninstall_cleanup fs sf d = some (st'.1, st'.2) by rw [hc]) q
      constructor
      · intro hq
        rcases List.mem_cons.mp hq with hq' | hq'
        · refine h2 ?_
          rw [hcl, if_pos hq']
        · exact h1 hq'
      · intro h0
        refine h2 ?_
        rw [hcl]
        by_cases hqd : q = d
        · rw [if_pos hqd]
        · rw [if_neg hqd]
          exact h0

/-- Counterexample to claim C6 as stated: one package to uninstall, one
failing install phase.  Commit reports the failure at mod.rs:449 before the
single `statefile.write` at mod.rs:452 ever runs, so the on-disk statefile
still carries the uninstalled package's entry — it does NOT reflect the
uninstall-phase removal the claim promises. -/
theorem commit_statefile_counterexample :
    (commit_statefile [] [(⟨"A", "A", ⟨1, 0, 0⟩⟩, ⟨[], []⟩)]
        [⟨"A", "A", ⟨1, 0, 0⟩⟩] false []).1 = CommitOutcome.installFailed ∧
    List.lookup (⟨"A", "A", ⟨1, 0, 0⟩⟩ : PackageReference)
      (commit_statefile [] [(⟨"A", "A", ⟨1, 0, 0⟩⟩, ⟨[], []⟩)]
        [⟨"A", "A", ⟨1, 0, 0⟩⟩] false []).2 = some ⟨[], []⟩ := by
  decide

/-- Claim C6 as amended: the statefile is persisted exactly once per
commit, after both phases.  When commit aborts — a panic in the uninstall
phase or any failure of the install phase — the on-disk statefile is
byte-for-byte the pre-commit one: uninstall-phase removals and the
statefile updates of already-completed install jobs are all lost.  Only a
fully successful commit writes the statefile, and that write carries every
uninstall-phase removal and all install recordings. -/
theorem commit_writes_statefile_once (fs : FileSystem) (disk : StateFileMap)
    (del : List PackageReference) (installsOk : Bool)
    (adds : List (PackageReference × StateEntry)) :
    ((commit_statefile fs disk del installsOk adds).1 ≠ CommitOutcome.ok →
      (commit_statefile fs disk del installsOk adds).2 = disk) ∧
    (∀ state, uninstall_phase fs disk del = some state → installsOk = true →
      commit_statefile fs disk del installsOk adds =
        (CommitOutcome.ok,
          adds.foldl (fun sf kv => statefile_record sf kv.1 kv.2) state.2) ∧
      ∀ p ∈ del, List.lookup p state.2 = none) := by
  constructor
  · intro hne
    unfold commit_statefile at hne ⊢
    cases hup : uninstall_phase fs disk del with
    | none => rfl
    | some state =>
      rw [hup] at hne
      cases installsOk with
      | true => exact absurd rfl hne
      | false => rfl
  · intro state hup hok
    subst hok
    constructor
    · unfold commit_statefile
      rw [hup]
      rfl
    · intro p hp
      exact ((uninstall_phase_removes del fs disk state hup) p).1 hp

/-- Witness for `commit_writes_statefile_once`: the failing-install case
leaves the disk statefile untouched; the successful case removes the
uninstalled package. -/
theorem commit_writes_statefile_once_witness :
    ((commit_statefile [] [(⟨"A", "A", ⟨1, 0, 0⟩⟩, ⟨[], []⟩)]
        [⟨"A", "A", ⟨1, 0, 0⟩⟩] false []).2 = [(⟨"A", "A", ⟨1, 0, 0⟩⟩, ⟨[], []⟩)]) ∧
    (commit_statefile [] [(⟨"A", "A", ⟨1, 0, 0⟩⟩, ⟨[], []⟩)]
        [⟨"A", "A", ⟨1, 0, 0⟩⟩] true [] =
      (CommitOutcome.ok,
        ([] : List (PackageReference × StateEntry)).foldl
          (fun sf kv => statefile_record sf kv.1 kv.2)
          ((([] : FileSystem), ([] : StateFileMap)) : FileSystem × StateFileMap).2) ∧
      ∀ p ∈ ([⟨"A", "A", ⟨1, 0, 0⟩⟩] : List PackageReference),
        List.lookup p
          (((([] : FileSystem), ([] : StateFileMap)) : FileSystem × StateFileMap).2) =
          none) :=
  ⟨(commit_writes_statefile_once [] [(⟨"A", "A", ⟨1, 0, 0⟩⟩, ⟨[], []⟩)]
      [⟨"A", "A", ⟨1, 0, 0⟩⟩] false []).1 (by decide),
    (commit_writes_statefile_once [] [(⟨"A", "A", ⟨1, 0, 0⟩⟩, ⟨[], []⟩)]
      [⟨"A", "A", ⟨1, 0, 0⟩⟩] true []).2 (([] : FileSystem), ([] : StateFileMap))
      (by decide) rfl⟩

/- ------------------------------------------------------------------ -/
/- `LockFile::commit` (src/project/lock.rs:65-75).                     -/
/- ------------------------------------------------------------------ -/

/-- Embedding of `LockFile::commit`'s file effect (lock.rs:65-75): the
lockfile is opened with `create(true).write(true)` and — unlike
`StateFile::write` (state.rs:70-80) and the index sync (index.rs:87-92) —
WITHOUT `truncate(true)`; `write_all` overwrites the first
`new_contents.len()` bytes and leaves any residue of longer previous
content in place. -/
def lockfile_commit_content (oldContent newContents : List Char) : List Char :=
  newContents ++ oldContent.drop newContents.length

/-- Claim C8 (settled as a code bug): at the failing input — a
pre-existing `Thunderstore.lock` longer than the new serialization — the
file after `LockFile::commit` is the new pretty-printed JSON followed by
the tail of the old content, NOT the serialization alone as the claim and
spec §6 state; in general the write only ever controls the first
`new.length` bytes and the file keeps `max` of the two lengths.
`LockFile::open_or_new` (lock.rs:29) `unwrap`s `serde_json::from_str` of
the whole file, so the residue panics the very next read of the
lockfile. -/
theorem lockfile_commit_leaves_residue :
    lockfile_commit_content
        ['o', 'l', 'd', 'l', 'o', 'n', 'g', 'j', 's', 'n'] ['n', 'e', 'w'] =
      ['n', 'e', 'w', 'l', 'o', 'n', 'g', 'j', 's', 'n'] ∧
    lockfile_commit_content
        ['o', 'l', 'd', 'l', 'o', 'n', 'g', 'j', 's', 'n'] ['n', 'e', 'w'] ≠
      ['n', 'e', 'w'] ∧
    (∀ oldContent newContents : List Char,
      (lockfile_commit_content oldContent newContents).take newContents.length =
        newContents) ∧
    (∀ oldContent newContents : List Char,
      (lockfile_commit_content oldContent newContents).length =
        max oldContent.length newContents.length) := by
  refine ⟨by decide, by decide, ?_, ?_⟩
  · intro oldContent newContents
    exact List.take_left _ _
  · intro oldContent newContents
    unfold lockfile_commit_content
    rw [List.length_append, List.length_drop]
    omega

/- ------------------------------------------------------------------ -/
/- `Project::open` stale-PID garbage collection (src/project/mod.rs).  -/
/- ------------------------------------------------------------------ -/

/-- Embedding of `str::parse::<usize>` as used at mod.rs:69: an optional
leading `+`, then one or more ASCII digits, value below `2^64` (64-bit
`usize`); anything else — empty input, other characters, overflow — is a
parse error. -/
def parseUsize (s : List Char) : Option Nat :=
  let digits := match s with
    | '+' :: rest => rest
    | _ => s
  if digits.isEmpty then none
  else if digits.all (fun c => c.isDigit) then
    let v := digits.foldl (fun acc c => acc * 10 + (c.toNat - '0'.toNat)) 0
    if v < 2 ^ 64 then some v else none
  else none

/-- Embedding of the stale-PID garbage collection in `Project::open`
(mod.rs:64-77).  Each `.pid` file is its path paired with its content when
readable (`read_to_string(..).ok()` silently drops unreadable files,
mod.rs:67); each readable content is parsed with an unconditional
`unwrap` (mod.rs:69), so an unparseable content panics the whole `open`
(`none`); otherwise the files whose PID is not currently running are
returned for deletion. -/
def gc_stale_pids (files : List (String × Option (List Char)))
    (running : Nat → Bool) : Option (List String) :=
  let readable := files.filterMap (fun f => f.2.map (fun c => (f.1, c)))
  if readable.all (fun f => (parseUsize f.2).isSome) then
    some (((readable.filter (fun f =>
      !(running ((parseUsize f.2).getD 0)))).map Prod.fst))
  else none

/-- Claim C10: the stale-PID garbage collection of `Project::open` panics
exactly when some readable `.pid` file's content fails to parse as an
unsigned integer — it neither returns an error nor skips such a file —
and returns normally precisely when every readable PID file parses. -/
theorem gc_stale_pids_unwrap (files : List (String × Option (List Char)))
    (running : Nat → Bool) :
    gc_stale_pids files running = none ↔
      ∃ f ∈ files, ∃ c, f.2 = some c ∧ parseUsize c = none := by
  unfold gc_stale_pids
  by_cases hall : (files.filterMap (fun f => f.2.map (fun c => (f.1, c)))).all
      (fun f => (parseUsize f.2).isSome) = true
  · rw [if_pos hall]
    simp only [reduceCtorEq, false_iff]
    rintro ⟨f, hf, c, hc, hparse⟩
    have hmem : (f.1, c) ∈ files.filterMap (fun f => f.2.map (fun c => (f.1, c))) := by
      refine List.mem_filterMap.mpr ⟨f, hf, ?_⟩
      rw [hc]
      rfl
    have := List.all_eq_true.mp hall _ hmem
    rw [show ((f.1, c) : String × List Char).2 = c from rfl, hparse] at this
    exact Option.noConfusion (Option.isSome_iff_exists.mp (by exact this)).choose_spec
  · rw [if_neg hall]
    simp only [true_iff]
    rw [Bool.not_eq_true, List.all_eq_false] at hall
    obtain ⟨x, hx, hpx⟩ := hall
    obtain ⟨f, hf, hfx⟩ := List.mem_filterMap.mp hx
    obtain ⟨c, hc, hgc⟩ := Option.map_eq_some.mp hfx
    refine ⟨f, hf, c, hc, ?_⟩
    have : x.2 = c := by rw [← hgc]
    rw [← this]
    rw [Bool.not_eq_true] at hpx
    cases hcase : parseUsize x.2 with
    | none => rfl
    | some v =>
      rw [hcase] at hpx
      exact Bool.noConfusion hpx

end Tcli
